import Mathlib

/-!
Verification of the ntua-pl2-interpreter virtual machine (src/vm.rs, src/heap.rs).

The development shallowly embeds the Rust source:
machine integers (i32 / usize) are modelled as Int / Nat with explicit
wrapping where the source wraps, slices are Lists, and every panic or
failed assertion of the source is an explicit error value.
-/

/-- Two's-complement wrap of an unbounded integer into the i32 range
[-2^31, 2^31).  Rust release-mode shifts and casts reduce modulo 2^32
into this range. -/
def wrap32 (x : Int) : Int := (x + 2147483648) % 4294967296 - 2147483648

/-- Reduction modulo 2^31 with sign extension (the 31-bit payload range
of a tagged word): the value the i32 encode/decode round trip produces. -/
def wrap31 (x : Int) : Int := (x + 1073741824) % 2147483648 - 1073741824

/-- Cast of an i32 value to a 64-bit usize, as Rust `as usize` does:
reduce modulo 2^64 into [0, 2^64). -/
def usizeOfInt (x : Int) : Nat := (x % 18446744073709551616).toNat

/-- src/heap.rs `Word`: a 32-bit tagged word, stored as its i32 bit
pattern interpreted as a signed integer. -/
structure Word where
  w : Int
deriving DecidableEq, Repr

/-- src/heap.rs `Word::from_pointer`: `(ptr as i32) << 1 | 0`.
The usize-to-i32 cast truncates (wrap32) and the shift wraps again;
or-ing with 0 is the identity. -/
def Word.from_pointer (ptr : Nat) : Word := ⟨wrap32 (2 * wrap32 ptr)⟩

/-- src/heap.rs `Word::from_int`: `int << 1 | 1`.  The wrapping shift
produces an even value, so or-ing the low bit is addition of 1. -/
def Word.from_int (int : Int) : Word := ⟨wrap32 (2 * int) + 1⟩

/-- src/heap.rs `Word::to_pointer`: `(self.w >> 1) as usize`.
Arithmetic right shift of an i32 is floor division by 2; the cast to a
64-bit usize reduces modulo 2^64. -/
def Word.to_pointer (x : Word) : Nat := usizeOfInt (Int.fdiv x.w 2)

/-- src/heap.rs `Word::to_int`: `self.w >> 1` (arithmetic shift). -/
def Word.to_int (x : Word) : Int := Int.fdiv x.w 2

/-- src/heap.rs `Word::is_pointer`: `(self.w & 1) == 0`. -/
def Word.is_pointer (x : Word) : Bool := x.w % 2 == 0

theorem wrap32_small {x : Int} (h0 : -2147483648 ≤ x) (h1 : x < 2147483648) :
    wrap32 x = x := by
  unfold wrap32; omega

theorem wrap32_even (x : Int) : (wrap32 (2 * x)) % 2 = 0 := by
  unfold wrap32; omega

theorem fdiv_two (x : Int) : Int.fdiv x 2 = x / 2 :=
  Int.fdiv_eq_ediv x (by decide)

theorem to_int_from_int (v : Int) : (Word.from_int v).to_int = wrap31 v := by
  unfold Word.from_int Word.to_int
  rw [fdiv_two]
  unfold wrap32 wrap31
  dsimp only
  omega

theorem to_int_from_int_small {v : Int} (h0 : -1073741824 ≤ v) (h1 : v < 1073741824) :
    (Word.from_int v).to_int = v := by
  rw [to_int_from_int]; unfold wrap31; omega

theorem to_pointer_from_pointer {a : Nat} (h : a < 1073741824) :
    (Word.from_pointer a).to_pointer = a := by
  unfold Word.from_pointer Word.to_pointer usizeOfInt
  rw [fdiv_two]
  unfold wrap32
  dsimp only
  omega

theorem is_pointer_from_pointer (a : Nat) : (Word.from_pointer a).is_pointer = true := by
  unfold Word.from_pointer Word.is_pointer
  simp only [beq_iff_eq]
  unfold wrap32
  omega

theorem is_pointer_from_int (v : Int) : (Word.from_int v).is_pointer = false := by
  unfold Word.from_int Word.is_pointer
  simp only [beq_eq_false_iff_ne, ne_eq]
  unfold wrap32
  omega

theorem to_int_from_pointer {a : Nat} (h : a < 1073741824) :
    (Word.from_pointer a).to_int = (a : Int) := by
  unfold Word.from_pointer Word.to_int
  rw [fdiv_two]
  unfold wrap32
  dsimp only
  omega

theorem to_pointer_from_int_nonneg {v : Int} (h0 : 0 ≤ v) (h1 : v < 1073741824) :
    (Word.from_int v).to_pointer = v.toNat := by
  unfold Word.from_int Word.to_pointer usizeOfInt
  rw [fdiv_two]
  unfold wrap32
  dsimp only
  omega

/-- C4: integer round trip on the representable 31-bit range, silent
wrap (reduction modulo 2^31 with sign extension) outside it, pointer
round trip for every address within the heap capacity (2^20 words,
vm.rs HEAP_SIZE), and is_pointer exactly discriminating the two
constructors. -/
theorem c4_word_roundtrip :
    (∀ v : Int, -1073741824 ≤ v → v < 1073741824 → (Word.from_int v).to_int = v) ∧
    (∀ v : Int, (Word.from_int v).to_int = wrap31 v) ∧
    (∀ a : Nat, a < 1048576 → (Word.from_pointer a).to_pointer = a) ∧
    (∀ a : Nat, a < 1048576 → (Word.from_pointer a).is_pointer = true) ∧
    (∀ v : Int, (Word.from_int v).is_pointer = false) := by
  refine ⟨fun v h0 h1 => to_int_from_int_small h0 h1,
          fun v => to_int_from_int v,
          fun a h => to_pointer_from_pointer (by omega),
          fun a _ => is_pointer_from_pointer a,
          fun v => is_pointer_from_int v⟩

/-- Witness for C4 at concrete inputs: 123 round trips, 2^30 wraps to
-2^30, address 77 round trips as a pointer, and the constructors land
on opposite sides of is_pointer. -/
theorem c4_word_roundtrip_witness :
    ((-1073741824 ≤ (123 : Int) ∧ (123 : Int) < 1073741824) ∧ (Word.from_int 123).to_int = 123) ∧
    (Word.from_int 1073741824).to_int = wrap31 1073741824 ∧
    ((77 < 1048576) ∧ (Word.from_pointer 77).to_pointer = 77) ∧
    (Word.from_pointer 77).is_pointer = true ∧
    (Word.from_int 123).is_pointer = false := by
  refine ⟨⟨by decide, c4_word_roundtrip.1 123 (by decide) (by decide)⟩,
          c4_word_roundtrip.2.1 1073741824,
          ⟨by decide, c4_word_roundtrip.2.2.1 77 (by decide)⟩,
          c4_word_roundtrip.2.2.2.1 77 (by decide),
          c4_word_roundtrip.2.2.2.2 123⟩

/-- Read a word list at an index; out-of-range reads default to the
zero word (indices used by the embedded code are always in range,
mirroring the panic-free executions of the source). -/
def nthD (l : List Word) (i : Nat) : Word := l.getD i ⟨0⟩

/-- Write a list of words at consecutive positions, as
`copy_from_slice` does on a subslice starting at start. -/
def writeSeg (l : List Word) (start : Nat) : List Word → List Word
  | [] => l
  | w :: ws => writeSeg (l.set start w) (start + 1) ws

theorem length_writeSeg (ws : List Word) (l : List Word) (start : Nat) :
    (writeSeg l start ws).length = l.length := by
  induction ws generalizing l start with
  | nil => rfl
  | cons w ws ih => simp [writeSeg, ih]

theorem nthD_set_eq {l : List Word} {i : Nat} (h : i < l.length) (w : Word) :
    nthD (l.set i w) i = w := by
  unfold nthD
  rw [List.getD_eq_getElem _ _ (by simpa using h)]
  simp [List.getElem_set_self]

theorem nthD_set_ne {l : List Word} {i k : Nat} (h : k ≠ i) (w : Word) :
    nthD (l.set i w) k = nthD l k := by
  unfold nthD
  by_cases hk : k < l.length
  · rw [List.getD_eq_getElem _ _ (by simp only [List.length_set]; omega),
        List.getD_eq_getElem _ _ hk]
    exact List.getElem_set_ne (Ne.symm h) _
  · rw [List.getD_eq_default _ _ (by simp only [List.length_set]; omega),
        List.getD_eq_default _ _ (by omega)]

theorem nthD_writeSeg_out (ws : List Word) (l : List Word) (start k : Nat)
    (h : k < start ∨ start + ws.length ≤ k) :
    nthD (writeSeg l start ws) k = nthD l k := by
  induction ws generalizing l start with
  | nil => rfl
  | cons w ws ih =>
    simp only [List.length_cons] at h
    simp only [writeSeg]
    rw [ih _ _ (by omega), nthD_set_ne (by omega)]

theorem nthD_writeSeg_in (ws : List Word) (l : List Word) (start : Nat)
    (hb : start + ws.length ≤ l.length) :
    ∀ j, j < ws.length → nthD (writeSeg l start ws) (start + j) = ws.getD j ⟨0⟩ := by
  induction ws generalizing l start with
  | nil => intro j hj; simp at hj
  | cons w ws ih =>
    intro j hj
    simp only [List.length_cons] at hb hj
    match j with
    | 0 =>
      simp only [writeSeg, Nat.add_zero]
      rw [nthD_writeSeg_out _ _ _ _ (by omega), nthD_set_eq (by omega)]
      rfl
    | j + 1 =>
      simp only [writeSeg]
      have := ih (l.set start w) (start + 1) (by simp only [List.length_set]; omega) j (by omega)
      rw [show start + (j + 1) = start + 1 + j by omega, this]
      rfl

/-- src/heap.rs `Heap`: a fixed array of words, an active-half flag and
the bump-allocation frontier of the active half. -/
structure Heap where
  heap : List Word
  first_half_active : Bool
  free_addr : Nat
deriving DecidableEq, Repr

/-- src/heap.rs `Heap::new`: zeroed memory, first half active. -/
def Heap.new (total_words : Nat) : Heap :=
  ⟨List.replicate total_words ⟨0⟩, true, 0⟩

/-- Outcome of `Heap::alloc`: `exhausted` is Rust's None return,
`panicked` covers the `try_into().unwrap()` and slice-length panics,
`ok addr` is Some(addr). -/
inductive AllocOut where
  | exhausted
  | panicked
  | ok (addr : Nat)
deriving DecidableEq, Repr

/-- src/heap.rs `Heap::alloc`.  The header value is Rust's
`size << 8 | tag` on usize (the shift wraps modulo 2^64; tag is a u8);
`try_into::<i32>().unwrap()` panics when it exceeds i32::MAX.  On the
exhausted and panicked paths the returned heap is the state the
mutation had reached (unchanged, except for the header on the
slice-length panic which kills the process anyway). -/
def Heap.alloc (h : Heap) (size : Nat) (tag : Nat) (words : List Word) : AllocOut × Heap :=
  let pivot := h.heap.length / 2
  let limit := if h.first_half_active then pivot else h.heap.length
  if limit ≤ h.free_addr + size then (.exhausted, h)
  else
    let header := size * 256 % 18446744073709551616 + tag % 256
    if 2147483648 ≤ header then (.panicked, h)
    else
      let addr := h.free_addr
      let heap1 := h.heap.set addr (Word.from_int header)
      if words.length ≠ size then (.panicked, { h with heap := heap1 })
      else
        (.ok addr, { heap := writeSeg heap1 (addr + 1) words,
                     first_half_active := h.first_half_active,
                     free_addr := h.free_addr + size + 1 })

/-- C3: `alloc` reports exhaustion exactly when `free_addr + size` does
not stay below the active half's limit, leaves the heap unchanged in
that case, and otherwise writes the `(size << 8) | tag` header at the
old `free_addr`, copies the payload into the following `size` words,
advances `free_addr` by `size + 1`, and modifies no other heap word.
The hypotheses record the call contract: the payload has length `size`,
the tag is a u8, and the header fits an i32 (true of every allocation
the VM can issue, since its sizes are bounded by the stack size). -/
theorem c3_alloc_contract (h : Heap) (size tag : Nat) (words : List Word)
    (hlen : words.length = size) (htag : tag < 256)
    (hhdr : size * 256 + tag < 2147483648) :
    (((h.alloc size tag words).1 = AllocOut.exhausted) ↔
        (if h.first_half_active then h.heap.length / 2 else h.heap.length) ≤ h.free_addr + size) ∧
    ((h.alloc size tag words).1 = AllocOut.exhausted → (h.alloc size tag words).2 = h) ∧
    (h.free_addr + size < (if h.first_half_active then h.heap.length / 2 else h.heap.length) →
      (h.alloc size tag words).1 = AllocOut.ok h.free_addr ∧
      nthD (h.alloc size tag words).2.heap h.free_addr = Word.from_int (size * 256 + tag) ∧
      (∀ j, j < size → nthD (h.alloc size tag words).2.heap (h.free_addr + 1 + j) = words.getD j ⟨0⟩) ∧
      (h.alloc size tag words).2.free_addr = h.free_addr + size + 1 ∧
      (h.alloc size tag words).2.first_half_active = h.first_half_active ∧
      (h.alloc size tag words).2.heap.length = h.heap.length ∧
      (∀ k, k < h.free_addr ∨ h.free_addr + size < k →
        nthD (h.alloc size tag words).2.heap k = nthD h.heap k)) := by
  have hm1 : size * 256 % 18446744073709551616 = size * 256 := Nat.mod_eq_of_lt (by omega)
  have hm2 : tag % 256 = tag := Nat.mod_eq_of_lt htag
  by_cases hex : (if h.first_half_active then h.heap.length / 2 else h.heap.length) ≤ h.free_addr + size
  · simp only [Heap.alloc, if_pos hex]
    exact ⟨by simp [hex], by simp, fun hlt => absurd hlt (by omega)⟩
  · have hlim : h.free_addr + size < (if h.first_half_active then h.heap.length / 2 else h.heap.length) := by
      omega
    have hlen2 : h.free_addr + 1 + size ≤ h.heap.length := by
      by_cases hfa : h.first_half_active <;> simp [hfa] at hlim <;> omega
    simp only [Heap.alloc, if_neg hex, hm1, hm2, if_neg (by omega : ¬ 2147483648 ≤ size * 256 + tag),
      if_neg (by omega : ¬ words.length ≠ size)]
    refine ⟨⟨fun hc => AllocOut.noConfusion hc, fun hc => absurd hc hex⟩, by simp, fun _ => ⟨by simp, ?_, fun j hj => ?_, by simp, by simp, ?_, fun k hk => ?_⟩⟩
    · rw [nthD_writeSeg_out _ _ _ _ (by omega)]
      exact nthD_set_eq (by omega) _
    · have := nthD_writeSeg_in words (h.heap.set h.free_addr (Word.from_int (size * 256 + tag)))
        (h.free_addr + 1) (by simp only [List.length_set]; omega) j (by omega)
      simpa using this
    · simp [length_writeSeg]
    · rw [nthD_writeSeg_out _ _ _ _ (by omega)]
      exact nthD_set_ne (by omega) _

/-- Witness for C3 on a fresh 8-word heap allocating one payload word:
the allocation succeeds at address 0. -/
theorem c3_alloc_contract_witness :
    ([Word.from_int 9].length = 1 ∧ 5 < 256 ∧ 1 * 256 + 5 < 2147483648) ∧
    ((Heap.new 8).alloc 1 5 [Word.from_int 9]).1 = AllocOut.ok 0 :=
  ⟨by decide, ((c3_alloc_contract (Heap.new 8) 1 5 [Word.from_int 9] (by decide) (by decide)
      (by decide)).2.2 (by decide)).1⟩

/-- src/heap.rs `TodoEntry`: a worklist entry is either an external
root (identified by its index into the root sequence, standing for the
`&mut Word` of the source) or a heap slot address. -/
inductive TodoEntry where
  | stackWord (i : Nat)
  | heapSlot (p : Nat)
deriving DecidableEq, Repr

/-- The collector's loop state: heap array, external roots, FIFO
worklist and the next free to-space slot. -/
structure GcSt where
  heap : List Word
  roots : List Word
  todo : List TodoEntry
  next : Nat
deriving DecidableEq, Repr

/-- The word an entry currently refers to. -/
def entryWord (s : GcSt) : TodoEntry → Word
  | .stackWord i => nthD s.roots i
  | .heapSlot p => nthD s.heap p

/-- `copy_within(src..src+n, dst)`: word at `dst + k` becomes the word
the array held at `src + k` before the copy (memmove semantics; src0 is
the pre-copy array). -/
def copySeg (src0 : List Word) (l : List Word) (src dst : Nat) : Nat → List Word
  | 0 => l
  | n + 1 => copySeg src0 (l.set dst (nthD src0 src)) (src + 1) (dst + 1) n

/-- The scan of a freshly copied payload: enqueue every slot in
`base..base+n` that holds a pointer into the from-space half. -/
def scanSlots (A : List Word) (lo hiHalf base n : Nat) : List TodoEntry :=
  ((List.range n).filter (fun j =>
      (nthD A (base + j)).is_pointer &&
      (decide (lo ≤ (nthD A (base + j)).to_pointer) &&
       decide ((nthD A (base + j)).to_pointer < hiHalf)))).map
    (fun j => TodoEntry.heapSlot (base + j))

/-- Result of one iteration of the collector loop. -/
inductive GcStepOut where
  | done (s : GcSt)
  | panic
  | cont (s : GcSt)
deriving DecidableEq, Repr

/-- One iteration of the `while let Some(entry) = todo.pop_front()`
loop of src/heap.rs `Heap::gc`.  `panic` is the
`assert!(next + size < limit)` failure (or the out-of-bounds
`copy_within` panic).  Note the source tests only whether the entry
word's `to_pointer` reading falls inside the from half; it never asks
whether the entry word is pointer-tagged. -/
def gcStep (lo hiHalf limit : Nat) (s : GcSt) : GcStepOut :=
  match s.todo with
  | [] => .done s
  | entry :: rest =>
    let word := entryWord s entry
    let ptr := word.to_pointer
    if lo ≤ ptr ∧ ptr < hiHalf then
      if (nthD s.heap ptr).is_pointer then
        let fwd := nthD s.heap ptr
        match entry with
        | .stackWord i => .cont ⟨s.heap, s.roots.set i fwd, rest, s.next⟩
        | .heapSlot p => .cont ⟨s.heap.set p fwd, s.roots, rest, s.next⟩
      else
        let header := (nthD s.heap ptr).to_int
        let size := usizeOfInt (Int.fdiv header 256)
        if s.next + size < limit then
          if ptr + size + 1 ≤ s.heap.length then
            let A2 := (copySeg s.heap s.heap ptr s.next (size + 1)).set ptr
                        (Word.from_pointer s.next)
            let todo2 := rest ++ scanSlots A2 lo hiHalf (s.next + 1) size
            let fwd := nthD A2 ptr
            match entry with
            | .stackWord i => .cont ⟨A2, s.roots.set i fwd, todo2, s.next + size + 1⟩
            | .heapSlot p => .cont ⟨A2.set p fwd, s.roots, todo2, s.next + size + 1⟩
          else .panic
        else .panic
    else
      .cont ⟨s.heap, s.roots, rest, s.next⟩

/-- Result of running the collector loop under fuel. -/
inductive GcLoopOut where
  | fin (s : GcSt)
  | panic
  | fuelOut
deriving DecidableEq, Repr

/-- The collector loop.  The fuel is an artifact of the embedding; the
termination theorems show the fuel chosen by `Heap.gc` is never
exhausted. -/
def gcLoop (lo hiHalf limit : Nat) : Nat → GcSt → GcLoopOut
  | 0, _ => .fuelOut
  | fuel + 1, s =>
    match gcStep lo hiHalf limit s with
    | .done s2 => .fin s2
    | .panic => .panic
    | .cont s2 => gcLoop lo hiHalf limit fuel s2

/-- Result of a collection: the new heap and the updated external
roots, or the fatal `GC out of memory` panic.  `fuelOut` is the
embedding artifact, proved unreachable for well-formed inputs. -/
inductive GcOut where
  | ok (h : Heap) (roots : List Word)
  | oom
  | fuelOut
deriving DecidableEq, Repr

/-- Fuel bound for the collector loop. -/
def gcFuel (h : Heap) (roots : List Word) : Nat :=
  h.heap.length * (h.heap.length + 1) + roots.length + 1

/-- src/heap.rs `Heap::gc`: seed the worklist with one entry per
external root, fix from-range / to-space bounds from the active half,
flip the active flag, run the loop, and record the final to-space
frontier as the new `free_addr`. -/
def Heap.gc (h : Heap) (roots : List Word) : GcOut :=
  let pivot := h.heap.length / 2
  let lo := if h.first_half_active then 0 else pivot
  let hiHalf := if h.first_half_active then pivot else h.heap.length
  let toLo := if h.first_half_active then pivot else 0
  let limit := if h.first_half_active then h.heap.length else pivot
  let todo := (List.range roots.length).map TodoEntry.stackWord
  match gcLoop lo hiHalf limit (gcFuel h roots) ⟨h.heap, roots, todo, toLo⟩ with
  | .fin s => .ok ⟨s.heap, !h.first_half_active, s.next⟩ s.roots
  | .panic => .oom
  | .fuelOut => .fuelOut

/-- Counterexample to C6: the loop only tests whether the entry word's
`to_pointer` reading falls in the from half; it never checks that the
word is pointer-tagged.  The integer word `from_int 0` is not a
pointer, yet collecting with it as the sole root rewrites it (to the
word 0 found at heap slot 0, taken for a forwarding pointer), so a
non-pointer entry word is not left untouched. -/
theorem c6_counterexample :
    (Word.from_int 0).is_pointer = false ∧
    Heap.gc ⟨[⟨0⟩, ⟨0⟩, ⟨0⟩, ⟨0⟩], true, 0⟩ [Word.from_int 0] =
      GcOut.ok ⟨[⟨0⟩, ⟨0⟩, ⟨0⟩, ⟨0⟩], false, 2⟩ [⟨0⟩] ∧
    (⟨0⟩ : Word) ≠ Word.from_int 0 := by
  refine ⟨by decide, by decide, by decide⟩

/-- C6 amended: an entry is skipped with the entry word, the rest of
the heap, the roots and the to-space frontier all untouched exactly
when the entry word's `to_pointer` reading lies outside the from-space
half (for a pointer-tagged word this reading is its address; a
non-pointer word whose integer payload falls inside the half is treated
as a pointer). -/
theorem c6_skip_untouched (lo hiHalf limit : Nat) (s : GcSt) (entry : TodoEntry)
    (rest : List TodoEntry) (h1 : s.todo = entry :: rest)
    (h2 : ¬(lo ≤ (entryWord s entry).to_pointer ∧ (entryWord s entry).to_pointer < hiHalf)) :
    gcStep lo hiHalf limit s = GcStepOut.cont ⟨s.heap, s.roots, rest, s.next⟩ := by
  unfold gcStep
  rw [h1]
  simp only [if_neg h2]

/-- Witness for the amended C6: a pointer root with address 5 lies
outside the from half [0, 1) and the step pops it leaving everything
unchanged. -/
theorem c6_skip_untouched_witness :
    ((⟨[⟨0⟩, ⟨0⟩], [Word.from_pointer 5], [TodoEntry.stackWord 0], 1⟩ : GcSt).todo =
        TodoEntry.stackWord 0 :: [] ∧
      ¬(0 ≤ (entryWord ⟨[⟨0⟩, ⟨0⟩], [Word.from_pointer 5], [TodoEntry.stackWord 0], 1⟩
            (TodoEntry.stackWord 0)).to_pointer ∧
        (entryWord ⟨[⟨0⟩, ⟨0⟩], [Word.from_pointer 5], [TodoEntry.stackWord 0], 1⟩
            (TodoEntry.stackWord 0)).to_pointer < 1)) ∧
    gcStep 0 1 2 ⟨[⟨0⟩, ⟨0⟩], [Word.from_pointer 5], [TodoEntry.stackWord 0], 1⟩ =
      GcStepOut.cont ⟨[⟨0⟩, ⟨0⟩], [Word.from_pointer 5], [], 1⟩ :=
  ⟨by decide, c6_skip_untouched 0 1 2 ⟨[⟨0⟩, ⟨0⟩], [Word.from_pointer 5], [TodoEntry.stackWord 0], 1⟩ (TodoEntry.stackWord 0) [] (by decide) (by decide)⟩

/-- vm.rs STACK_SIZE = 1 << 14. -/
def STACK_SIZE : Nat := 16384

/-- vm.rs HEAP_SIZE = 1 << 20. -/
def HEAP_SIZE : Nat := 1048576

/-- src/vm.rs `Instruction` (decoded form; the immediates carry the
already sign-extended values the decoder produces). -/
inductive Instruction where
  | Halt
  | Jump (addr : Nat)
  | Jnz (addr : Nat)
  | Jumpi
  | Dup (depth : Nat)
  | Swap (depth : Nat)
  | Drop
  | Push4 (v : Int)
  | Push2 (v : Int)
  | Push1 (v : Int)
  | Add | Sub | Mul | Div | Mod
  | Eq | Ne | Lt | Gt | Le | Ge
  | Not | And | Or
  | Input
  | Output
  | Alloc
  | Load (offset : Nat)
  | Clock
deriving DecidableEq, Repr

/-- src/vm.rs `VM` state: the operand stack (a fixed array), the stack
pointer, the heap, plus the modelled I/O streams: `input` holds the
bytes stdin will yield, `output` the Unicode scalar values written so
far. -/
structure VMState where
  stack : List Word
  stack_ptr : Nat
  heap : Heap
  input : List Nat
  output : List Nat
deriving DecidableEq, Repr

/-- Result of executing one instruction: continue, jump to a bytecode
address, halt, or die (any Rust panic / failed assertion). -/
inductive StepRes where
  | ok (s : VMState)
  | jmp (target : Nat) (s : VMState)
  | halt (s : VMState)
  | fatal
deriving DecidableEq, Repr

/-- src/vm.rs `pop_word`: read the word below the stack pointer and
decrement it; an out-of-range access (empty stack) is a panic. -/
def popW (s : VMState) : Option (Word × VMState) :=
  if 1 ≤ s.stack_ptr ∧ s.stack_ptr ≤ s.stack.length then
    some (nthD s.stack (s.stack_ptr - 1), { s with stack_ptr := s.stack_ptr - 1 })
  else none

/-- src/vm.rs `push_word`: write at the stack pointer and increment it;
writing past the fixed array is a panic. -/
def pushW (s : VMState) (w : Word) : StepRes :=
  if s.stack_ptr < s.stack.length then
    .ok { s with stack := s.stack.set s.stack_ptr w, stack_ptr := s.stack_ptr + 1 }
  else .fatal

/-- Two's-complement i32 bit pattern of an integer. -/
def i32bits (a : Int) : Nat := (a % 4294967296).toNat

/-- Rust i32 bitwise and. -/
def landI32 (a b : Int) : Int := wrap32 (Nat.land (i32bits a) (i32bits b))

/-- Rust i32 bitwise or. -/
def lorI32 (a b : Int) : Int := wrap32 (Nat.lor (i32bits a) (i32bits b))

/-- The native result of each binary instruction on operands a, b
(left, right), per the match in src/vm.rs `run`.  `Div`/`Mod` are
Rust's truncating division and remainder. -/
def binopResult : Instruction → Int → Int → Int
  | .Add, a, b => a + b
  | .Sub, a, b => a - b
  | .Mul, a, b => a * b
  | .Div, a, b => Int.tdiv a b
  | .Mod, a, b => Int.tmod a b
  | .Eq, a, b => if a = b then 1 else 0
  | .Ne, a, b => if a ≠ b then 1 else 0
  | .Lt, a, b => if a < b then 1 else 0
  | .Gt, a, b => if b < a then 1 else 0
  | .Le, a, b => if a ≤ b then 1 else 0
  | .Ge, a, b => if b ≤ a then 1 else 0
  | .And, a, b => landI32 a b
  | .Or, a, b => lorI32 a b
  | _, _, _ => 0

/-- The shared binary-instruction path of src/vm.rs `run`: pop the
right operand then the left, require both integer-tagged, compute, push
as an integer word.  Division or remainder by zero is a Rust panic. -/
def binStep (s : VMState) (i : Instruction) : StepRes :=
  match popW s with
  | none => .fatal
  | some (bw, s1) =>
    if bw.is_pointer then .fatal
    else
      match popW s1 with
      | none => .fatal
      | some (aw, s2) =>
        if aw.is_pointer then .fatal
        else if (i = .Div ∨ i = .Mod) ∧ bw.to_int = 0 then .fatal
        else pushW s2 (Word.from_int (binopResult i aw.to_int bw.to_int))

/-- Read `n` consecutive stack words starting at `start` (a slice of
the stack array). -/
def seg (l : List Word) (start : Nat) : Nat → List Word
  | 0 => []
  | n + 1 => nthD l start :: seg l (start + 1) n

/-- Write the collector's updated root words back into the stack slots
they came from (the source updates them in place through `&mut Word`;
the slot indices and new values are paired positionally). -/
def scatter (l : List Word) : List Nat → List Word → List Word
  | i :: is, w :: ws => scatter (l.set i w) is ws
  | _, _ => l

/-- The pointer-slot indices of the stack below the stack pointer: the
positions whose `&mut Word` references vm.rs passes to `Heap::gc` as
the root set (`.iter_mut().filter(|w| w.is_pointer())`). -/
def rootIdxs (stack : List Word) (sp : Nat) : List Nat :=
  (List.range sp).filter (fun i => (nthD stack i).is_pointer)

/-- src/vm.rs `run`, body of the `Instruction::Alloc` arm after tag and
size have been popped and validated: take the top `size` words as
payload, attempt the allocation; on exhaustion collect once with the
pointer-tagged stack words below the top as roots and retry once; a
second failure (or a collection failure) is fatal. -/
def allocStep (s : VMState) (size tag : Nat) : StepRes :=
  let sp2 := s.stack_ptr
  let words := seg s.stack (sp2 - size) size
  match s.heap.alloc size tag words with
  | (.ok addr, h2) =>
    pushW { s with heap := h2, stack_ptr := sp2 - size } (Word.from_pointer addr)
  | (.panicked, _) => .fatal
  | (.exhausted, _) =>
    let idxs := rootIdxs s.stack sp2
    let roots := idxs.map (fun i => nthD s.stack i)
    match s.heap.gc roots with
    | .ok h2 roots2 =>
      let stack2 := scatter s.stack idxs roots2
      let words2 := seg stack2 (sp2 - size) size
      match h2.alloc size tag words2 with
      | (.ok addr, h3) =>
        pushW { s with stack := stack2, heap := h3, stack_ptr := sp2 - size }
          (Word.from_pointer addr)
      | (.panicked, _) => .fatal
      | (.exhausted, _) => .fatal
    | .oom => .fatal
    | .fuelOut => .fatal

/-- src/vm.rs `run`: execute one decoded instruction.  Every Rust panic
or failed assertion of the source (stack under/overflow, type asserts,
division by zero, invalid Unicode scalar, invalid tag or size, heap
index out of bounds, allocation failure after one collection) is
`fatal`.  `Clock` prints wall-clock time, which the model does not
observe; its state is otherwise unchanged. -/
def step (s : VMState) : Instruction → StepRes
  | .Halt => .halt s
  | .Jump addr => .jmp addr s
  | .Jnz addr =>
    match popW s with
    | none => .fatal
    | some (arg, s2) =>
      if arg.is_pointer then .fatal
      else if arg.to_int ≠ 0 then .jmp addr s2 else .ok s2
  | .Jumpi =>
    match popW s with
    | none => .fatal
    | some (addr, s2) =>
      if addr.is_pointer then .fatal
      else .jmp (usizeOfInt addr.to_int) s2
  | .Dup depth =>
    if depth + 1 ≤ s.stack_ptr ∧ s.stack_ptr ≤ s.stack.length then
      pushW s (nthD s.stack (s.stack_ptr - 1 - depth))
    else .fatal
  | .Swap depth =>
    if depth = 0 then .fatal
    else
      match popW s with
      | none => .fatal
      | some (top, s2) =>
        if depth ≤ s.stack_ptr - 1 then
          let idx := s.stack_ptr - 1 - 1 - (depth - 1)
          let old := nthD s2.stack idx
          pushW { s2 with stack := s2.stack.set idx top } old
        else .fatal
  | .Drop =>
    match popW s with
    | none => .fatal
    | some (_, s2) => .ok s2
  | .Push4 v => pushW s (Word.from_int v)
  | .Push2 v => pushW s (Word.from_int v)
  | .Push1 v => pushW s (Word.from_int v)
  | .Add => binStep s .Add
  | .Sub => binStep s .Sub
  | .Mul => binStep s .Mul
  | .Div => binStep s .Div
  | .Mod => binStep s .Mod
  | .Eq => binStep s .Eq
  | .Ne => binStep s .Ne
  | .Lt => binStep s .Lt
  | .Gt => binStep s .Gt
  | .Le => binStep s .Le
  | .Ge => binStep s .Ge
  | .And => binStep s .And
  | .Or => binStep s .Or
  | .Not =>
    match popW s with
    | none => .fatal
    | some (arg, s2) =>
      if arg.is_pointer then .fatal
      else pushW s2 (Word.from_int (if arg.to_int = 0 then 1 else 0))
  | .Input =>
    match s.input with
    | [] => .fatal
    | c :: rest => pushW { s with input := rest } (Word.from_int (c % 256))
  | .Output =>
    match popW s with
    | none => .fatal
    | some (arg, s2) =>
      let v := arg.to_int
      if v < 0 ∨ (55296 ≤ v ∧ v < 57344) ∨ 1114111 < v then .fatal
      else .ok { s2 with output := s2.output ++ [v.toNat] }
  | .Alloc =>
    match popW s with
    | none => .fatal
    | some (tagw, s1) =>
      if tagw.is_pointer then .fatal
      else if tagw.to_int < 0 ∨ 255 < tagw.to_int then .fatal
      else
        match popW s1 with
        | none => .fatal
        | some (sizew, s2) =>
          if sizew.is_pointer then .fatal
          else if sizew.to_int < 0 then .fatal
          else if s2.stack_ptr < sizew.to_int.toNat then .fatal
          else allocStep s2 sizew.to_int.toNat tagw.to_int.toNat
  | .Load offset =>
    match popW s with
    | none => .fatal
    | some (word, s2) =>
      if word.is_pointer then
        if word.to_pointer + offset < s.heap.heap.length then
          pushW s2 (nthD s.heap.heap (word.to_pointer + offset))
        else .fatal
      else .fatal
  | .Clock => .ok s

/-- Outcome of executing a straight-line instruction sequence. -/
inductive RunOut where
  | ok (s : VMState)
  | halted (s : VMState)
  | jumped (target : Nat) (s : VMState)
  | fatal
deriving DecidableEq, Repr

/-- Execute a list of decoded instructions in order (the vm.rs
decode/execute loop restricted to jump-free programs; a control
transfer surfaces as `jumped`). -/
def runList (s : VMState) : List Instruction → RunOut
  | [] => .ok s
  | i :: is =>
    match step s i with
    | .ok s2 => runList s2 is
    | .halt s2 => .halted s2
    | .jmp t s2 => .jumped t s2
    | .fatal => .fatal

/-- src/vm.rs `VM::new`: zeroed stack of STACK_SIZE integer words,
empty stack, fresh heap of HEAP_SIZE words. -/
def VM.new (input : List Nat) : VMState :=
  ⟨List.replicate STACK_SIZE (Word.from_int 0), 0, Heap.new HEAP_SIZE, input, []⟩

/-- The thirteen instructions handled by the shared binary-operator arm
of src/vm.rs `run`. -/
def isBinop : Instruction → Bool
  | .Add | .Sub | .Mul | .Div | .Mod | .Eq | .Ne | .Lt | .Gt | .Le | .Ge | .And | .Or => true
  | _ => false

theorem step_eq_binStep (s : VMState) (i : Instruction) (hbin : isBinop i = true) :
    step s i = binStep s i := by
  cases i <;> simp [isBinop] at hbin <;> rfl

/-- C8: every binary arithmetic/comparison/logic instruction pops the
right operand first (the stack top) and the left operand second, faults
fatally when either operand is pointer-tagged, faults fatally on a zero
divisor for Div/Mod without pushing anything, pushes exactly 1 or 0 for
comparisons, and otherwise pushes the integer word of the native
result, with Div/Mod truncating (on left 7, right 2 they produce 3 and
1). -/
theorem c8_binop_semantics (s : VMState) (i : Instruction) (hbin : isBinop i = true)
    (hsp : 2 ≤ s.stack_ptr) (hlen : s.stack_ptr ≤ s.stack.length) :
    step s i = binStep s i ∧
    (((nthD s.stack (s.stack_ptr - 1)).is_pointer = true ∨
      (nthD s.stack (s.stack_ptr - 2)).is_pointer = true) → binStep s i = .fatal) ∧
    ((i = .Div ∨ i = .Mod) → (nthD s.stack (s.stack_ptr - 1)).to_int = 0 →
      binStep s i = .fatal) ∧
    ((nthD s.stack (s.stack_ptr - 1)).is_pointer = false →
     (nthD s.stack (s.stack_ptr - 2)).is_pointer = false →
     ¬((i = .Div ∨ i = .Mod) ∧ (nthD s.stack (s.stack_ptr - 1)).to_int = 0) →
      binStep s i = .ok ⟨s.stack.set (s.stack_ptr - 2)
          (Word.from_int (binopResult i (nthD s.stack (s.stack_ptr - 2)).to_int
            (nthD s.stack (s.stack_ptr - 1)).to_int)),
        s.stack_ptr - 1, s.heap, s.input, s.output⟩) ∧
    (∀ a b : Int, (i = .Eq ∨ i = .Ne ∨ i = .Lt ∨ i = .Gt ∨ i = .Le ∨ i = .Ge) →
      binopResult i a b = 0 ∨ binopResult i a b = 1) ∧
    binopResult .Div 7 2 = 3 ∧ binopResult .Mod 7 2 = 1 := by
  have hpop1 : popW s = some (nthD s.stack (s.stack_ptr - 1),
      { s with stack_ptr := s.stack_ptr - 1 }) := by
    unfold popW
    rw [if_pos ⟨by omega, hlen⟩]
  have hpop2 : popW { s with stack_ptr := s.stack_ptr - 1 } =
      some (nthD s.stack (s.stack_ptr - 2),
        { s with stack_ptr := s.stack_ptr - 1 - 1 }) := by
    unfold popW
    rw [if_pos ⟨by simp; omega, by simp; omega⟩]
    have : s.stack_ptr - 1 - 1 = s.stack_ptr - 2 := by omega
    simp [this]
  refine ⟨step_eq_binStep s i hbin, ?_, ?_, ?_, ?_, by decide, by decide⟩
  · intro hptr
    unfold binStep
    rw [hpop1]
    dsimp only
    rcases hptr with hb | ha
    · rw [if_pos hb]
    · by_cases hb : (nthD s.stack (s.stack_ptr - 1)).is_pointer = true
      · rw [if_pos hb]
      · rw [if_neg hb, hpop2]
        dsimp only
        rw [if_pos ha]
  · intro hdm hz
    unfold binStep
    rw [hpop1]
    dsimp only
    by_cases hb : (nthD s.stack (s.stack_ptr - 1)).is_pointer = true
    · rw [if_pos hb]
    · rw [if_neg hb, hpop2]
      dsimp only
      by_cases ha : (nthD s.stack (s.stack_ptr - 2)).is_pointer = true
      · rw [if_pos ha]
      · rw [if_neg ha, if_pos ⟨hdm, hz⟩]
  · intro hb ha hnz
    unfold binStep
    rw [hpop1]
    dsimp only
    rw [if_neg (by simp [hb]), hpop2]
    dsimp only
    rw [if_neg (by simp [ha]), if_neg hnz]
    unfold pushW
    rw [if_pos (by simp; omega)]
    have h2 : s.stack_ptr - 2 = s.stack_ptr - 1 - 1 := by omega
    have h1 : s.stack_ptr - 1 - 1 + 1 = s.stack_ptr - 1 := by omega
    simp [h2, h1]
  · intro a b hcmp
    rcases hcmp with h | h | h | h | h | h <;> subst h <;>
      simp only [binopResult] <;> split <;> simp

/-- Witness for C8: on a stack holding 7 (left) under 2 (right),
executing Div pushes the integer word 3. -/
theorem c8_binop_semantics_witness :
    (isBinop Instruction.Div = true ∧
      2 ≤ (⟨[Word.from_int 7, Word.from_int 2], 2, Heap.new 4, [], []⟩ : VMState).stack_ptr ∧
      (⟨[Word.from_int 7, Word.from_int 2], 2, Heap.new 4, [], []⟩ : VMState).stack_ptr ≤
        (⟨[Word.from_int 7, Word.from_int 2], 2, Heap.new 4, [], []⟩ : VMState).stack.length) ∧
    step ⟨[Word.from_int 7, Word.from_int 2], 2, Heap.new 4, [], []⟩ Instruction.Div =
      .ok ⟨[Word.from_int 3, Word.from_int 2], 1, Heap.new 4, [], []⟩ := by
  refine ⟨by decide, ?_⟩
  have h := c8_binop_semantics ⟨[Word.from_int 7, Word.from_int 2], 2, Heap.new 4, [], []⟩
    Instruction.Div (by decide) (by decide) (by decide)
  rw [h.1, h.2.2.2.1 (by decide) (by decide) (by decide)]
  decide

theorem nthD_set_ite (l : List Word) (i k : Nat) (w : Word) :
    nthD (l.set i w) k = if i = k ∧ i < l.length then w else nthD l k := by
  by_cases h : i = k ∧ i < l.length
  · rw [if_pos h, ← h.1, nthD_set_eq h.2]
  · rw [if_neg h]
    by_cases hk : k = i
    · subst hk
      have : ¬ k < l.length := fun hlt => h ⟨rfl, hlt⟩
      unfold nthD
      rw [List.getD_eq_default _ _ (by simp; omega), List.getD_eq_default _ _ (by omega)]
    · exact nthD_set_ne hk w

theorem nthD_replicate (n k : Nat) (w : Word) :
    nthD (List.replicate n w) k = if k < n then w else ⟨0⟩ := by
  by_cases h : k < n
  · rw [if_pos h]
    unfold nthD
    rw [List.getD_eq_getElem _ _ (by simpa using h)]
    exact List.getElem_replicate w _
  · rw [if_neg h]
    unfold nthD
    exact List.getD_eq_default _ _ (by simpa using h)

theorem nthD_writeSeg_ite (ws : List Word) (l : List Word) (start k : Nat)
    (hb : start + ws.length ≤ l.length) :
    nthD (writeSeg l start ws) k =
      if start ≤ k ∧ k < start + ws.length then ws.getD (k - start) ⟨0⟩ else nthD l k := by
  by_cases h : start ≤ k ∧ k < start + ws.length
  · rw [if_pos h]
    have := nthD_writeSeg_in ws l start hb (k - start) (by omega)
    rwa [show start + (k - start) = k by omega] at this
  · rw [if_neg h]
    exact nthD_writeSeg_out ws l start k (by omega)

/-- Output-stream projection of a straight-line run that halted. -/
def runOutputOf : RunOut → Option (List Nat)
  | .halted s => some s.output
  | _ => none

set_option maxRecDepth 4000 in
theorem run_prog7_general (st : List Word) (hp : Heap)
    (hst : st.length = 16384) (hhl : hp.heap.length = 1048576)
    (hfa : hp.first_half_active = true) (hfr : hp.free_addr = 0) :
    runList ⟨st, 0, hp, [], []⟩
      [.Push1 1, .Push1 1, .Push1 0, .Alloc, .Output, .Halt] =
      RunOut.halted ⟨(((st.set 0 (Word.from_int 1)).set 1 (Word.from_int 1)).set 2
          (Word.from_int 0)).set 0 (Word.from_pointer 0), 0,
        ⟨writeSeg (hp.heap.set 0 (Word.from_int 256)) 1 [Word.from_int 1], true, 2⟩,
        [], [0]⟩ := by
  simp [runList, step, popW, pushW, binStep, allocStep, Heap.alloc, seg, writeSeg,
    scatter, rootIdxs, nthD_set_ite, nthD_writeSeg_ite, hst, hhl, hfa, hfr,
    is_pointer_from_int, is_pointer_from_pointer, to_int_from_int_small,
    to_int_from_pointer, to_pointer_from_pointer, List.length_set, length_writeSeg]

/-- Counterexample to C7: in a complete execution from the fresh VM
(the program allocates a one-word block, leaving the pointer word
`from_pointer 0` on top, then executes Output), the pointer-tagged
operand does not make the run fatal: the run halts after writing the
scalar 0 (the pointer's numeric payload).  vm.rs's Output arm never
checks the operand's tag. -/
theorem c7_counterexample :
    (Word.from_pointer 0).is_pointer = true ∧
    runOutputOf (runList (VM.new [])
      [.Push1 1, .Push1 1, .Push1 0, .Alloc, .Output, .Halt]) = some [0] ∧
    runList (VM.new []) [.Push1 1, .Push1 1, .Push1 0, .Alloc, .Output, .Halt] ≠
      RunOut.fatal := by
  have h := run_prog7_general (List.replicate STACK_SIZE (Word.from_int 0))
    (Heap.new HEAP_SIZE)
    (by rw [List.length_replicate]; rfl)
    (by show (List.replicate HEAP_SIZE (⟨0⟩ : Word)).length = 1048576
        rw [List.length_replicate]; rfl)
    rfl rfl
  have hvm : VM.new [] =
      (⟨List.replicate STACK_SIZE (Word.from_int 0), 0, Heap.new HEAP_SIZE, [], []⟩ : VMState) :=
    rfl
  refine ⟨by decide, ?_, ?_⟩
  · rw [hvm, h]
    rfl
  · rw [hvm, h]
    exact fun hc => RunOut.noConfusion hc

/-- C7 amended: Output pops the operand and interprets its numeric
payload (`to_int`, regardless of the tag bit: a pointer-tagged operand
is not rejected, its address payload is used) as a Unicode scalar
value; the run terminates fatally exactly when that payload is negative,
a surrogate, or above 0x10FFFF, and otherwise the scalar is appended to
the output stream and the operand is popped. -/
theorem c7_output_semantics (s : VMState) (hsp : 1 ≤ s.stack_ptr)
    (hlen : s.stack_ptr ≤ s.stack.length) :
    (((nthD s.stack (s.stack_ptr - 1)).to_int < 0 ∨
      (55296 ≤ (nthD s.stack (s.stack_ptr - 1)).to_int ∧
        (nthD s.stack (s.stack_ptr - 1)).to_int < 57344) ∨
      1114111 < (nthD s.stack (s.stack_ptr - 1)).to_int) →
      step s .Output = .fatal) ∧
    (¬((nthD s.stack (s.stack_ptr - 1)).to_int < 0 ∨
      (55296 ≤ (nthD s.stack (s.stack_ptr - 1)).to_int ∧
        (nthD s.stack (s.stack_ptr - 1)).to_int < 57344) ∨
      1114111 < (nthD s.stack (s.stack_ptr - 1)).to_int) →
      step s .Output = .ok ⟨s.stack, s.stack_ptr - 1, s.heap, s.input,
        s.output ++ [(nthD s.stack (s.stack_ptr - 1)).to_int.toNat]⟩) := by
  have hpop : popW s = some (nthD s.stack (s.stack_ptr - 1),
      { s with stack_ptr := s.stack_ptr - 1 }) := by
    unfold popW
    rw [if_pos ⟨by omega, hlen⟩]
  constructor
  · intro hbad
    show step s .Output = .fatal
    unfold step
    rw [hpop]
    dsimp only
    rw [if_pos hbad]
  · intro hgood
    show step s .Output = _
    unfold step
    rw [hpop]
    dsimp only
    rw [if_neg hgood]

/-- Witness for the amended C7: outputting the integer word 65 appends
scalar 65 and pops it. -/
theorem c7_output_semantics_witness :
    (1 ≤ (⟨[Word.from_int 65], 1, Heap.new 4, [], []⟩ : VMState).stack_ptr ∧
      (⟨[Word.from_int 65], 1, Heap.new 4, [], []⟩ : VMState).stack_ptr ≤
        (⟨[Word.from_int 65], 1, Heap.new 4, [], []⟩ : VMState).stack.length) ∧
    step ⟨[Word.from_int 65], 1, Heap.new 4, [], []⟩ Instruction.Output =
      .ok ⟨[Word.from_int 65], 0, Heap.new 4, [], [65]⟩ := by
  refine ⟨by decide, ?_⟩
  have h := (c7_output_semantics ⟨[Word.from_int 65], 1, Heap.new 4, [], []⟩
    (by decide) (by decide)).2 (by decide)
  rw [h]
  decide

/-- Top-of-stack projection of a straight-line run. -/
def runTopOf : RunOut → Option Word
  | .ok s => some (nthD s.stack (s.stack_ptr - 1))
  | .halted s => some (nthD s.stack (s.stack_ptr - 1))
  | _ => none

set_option maxRecDepth 4000 in
theorem run_prog9_general (st : List Word) (hp : Heap)
    (hst : st.length = 16384) (hhl : hp.heap.length = 1048576)
    (hfa : hp.first_half_active = true) (hfr : hp.free_addr = 0) :
    runList ⟨st, 0, hp, [], []⟩
      [.Push1 10, .Push1 20, .Push1 30, .Push1 3, .Push1 1, .Alloc, .Push4 0, .Load 0] =
      RunOut.fatal := by
  simp [runList, step, popW, pushW, binStep, allocStep, Heap.alloc, seg, writeSeg,
    scatter, rootIdxs, nthD_set_ite, nthD_writeSeg_ite, hst, hhl, hfa, hfr,
    is_pointer_from_int, is_pointer_from_pointer, to_int_from_int_small,
    to_int_from_pointer, to_pointer_from_pointer, List.length_set, length_writeSeg]

set_option maxRecDepth 4000 in
theorem run_prog9_amended_general (st : List Word) (hp : Heap)
    (hst : st.length = 16384) (hhl : hp.heap.length = 1048576)
    (hfa : hp.first_half_active = true) (hfr : hp.free_addr = 0) :
    runList ⟨st, 0, hp, [], []⟩
      [.Push1 10, .Push1 20, .Push1 30, .Push1 3, .Push1 1, .Alloc, .Load 1] =
      RunOut.ok ⟨((((((st.set 0 (Word.from_int 10)).set 1 (Word.from_int 20)).set 2
            (Word.from_int 30)).set 3 (Word.from_int 3)).set 4 (Word.from_int 1)).set 0
            (Word.from_pointer 0)).set 0 (Word.from_int 10), 1,
        ⟨writeSeg (hp.heap.set 0 (Word.from_int 769)) 1
            [Word.from_int 10, Word.from_int 20, Word.from_int 30], true, 4⟩,
        [], []⟩ := by
  simp [runList, step, popW, pushW, binStep, allocStep, Heap.alloc, seg, writeSeg,
    scatter, rootIdxs, nthD_set_ite, nthD_writeSeg_ite, hst, hhl, hfa, hfr,
    is_pointer_from_int, is_pointer_from_pointer, to_int_from_int_small,
    to_int_from_pointer, to_pointer_from_pointer, List.length_set, length_writeSeg]

/-- Counterexample to C9: the program of the claim (three pushed
literals, `Push1 3` size, `Push1 1` tag, `Alloc`, then `Push4 0` and
`Load 0`), run on the fresh VM, terminates fatally instead of yielding
the first payload value: `Load` pops the integer word just pushed by
`Push4 0`, and its pointer assertion fails. -/
theorem c9_counterexample :
    runList (VM.new [])
      [.Push1 10, .Push1 20, .Push1 30, .Push1 3, .Push1 1, .Alloc, .Push4 0, .Load 0] =
      RunOut.fatal := by
  have h := run_prog9_general (List.replicate STACK_SIZE (Word.from_int 0))
    (Heap.new HEAP_SIZE)
    (by rw [List.length_replicate]; rfl)
    (by show (List.replicate HEAP_SIZE (⟨0⟩ : Word)).length = 1048576
        rw [List.length_replicate]; rfl)
    rfl rfl
  have hvm : VM.new [] =
      (⟨List.replicate STACK_SIZE (Word.from_int 0), 0, Heap.new HEAP_SIZE, [], []⟩ : VMState) :=
    rfl
  rw [hvm, h]

/-- C9 amended: dropping the stray `Push4 0` and loading at offset 1
(the first payload slot; offset 0 is the block header, and `Load` wants
the pointer itself on top), the amended program does push the first of
the three payload values: after `Push1 10, Push1 20, Push1 30, Push1 3,
Push1 1, Alloc, Load 1` the top of stack is the integer word 10. -/
theorem c9_load_first_payload (st : List Word) (hp : Heap)
    (hst : st.length = 16384) (hhl : hp.heap.length = 1048576)
    (hfa : hp.first_half_active = true) (hfr : hp.free_addr = 0) :
    runTopOf (runList ⟨st, 0, hp, [], []⟩
      [.Push1 10, .Push1 20, .Push1 30, .Push1 3, .Push1 1, .Alloc, .Load 1]) =
      some (Word.from_int 10) := by
  rw [run_prog9_amended_general st hp hst hhl hfa hfr]
  simp only [runTopOf, Nat.sub_self]
  rw [nthD_set_eq (by simp only [List.length_set]; omega)]

/-- Witness for the amended C9 on the fresh VM. -/
theorem c9_load_first_payload_witness :
    ((List.replicate STACK_SIZE (Word.from_int 0)).length = 16384 ∧
      (Heap.new HEAP_SIZE).heap.length = 1048576 ∧
      (Heap.new HEAP_SIZE).first_half_active = true ∧
      (Heap.new HEAP_SIZE).free_addr = 0) ∧
    runTopOf (runList (VM.new [])
      [.Push1 10, .Push1 20, .Push1 30, .Push1 3, .Push1 1, .Alloc, .Load 1]) =
      some (Word.from_int 10) := by
  have h1 : (List.replicate STACK_SIZE (Word.from_int 0)).length = 16384 := by
    rw [List.length_replicate]; rfl
  have h2 : (Heap.new HEAP_SIZE).heap.length = 1048576 := by
    show (List.replicate HEAP_SIZE (⟨0⟩ : Word)).length = 1048576
    rw [List.length_replicate]; rfl
  refine ⟨⟨h1, h2, rfl, rfl⟩, ?_⟩
  have h := c9_load_first_payload (List.replicate STACK_SIZE (Word.from_int 0))
    (Heap.new HEAP_SIZE) h1 h2 rfl rfl
  have hvm : VM.new [] =
      (⟨List.replicate STACK_SIZE (Word.from_int 0), 0, Heap.new HEAP_SIZE, [], []⟩ : VMState) :=
    rfl
  rw [hvm, h]

theorem mem_rootIdxs_is_pointer (stack : List Word) (sp i : Nat)
    (h : i ∈ rootIdxs stack sp) : (nthD stack i).is_pointer = true := by
  unfold rootIdxs at h
  exact (List.mem_filter.mp h).2

theorem scatter_not_mem (is : List Nat) (ws : List Word) (l : List Word) (k : Nat)
    (h : k ∉ is) : nthD (scatter l is ws) k = nthD l k := by
  induction is generalizing l ws with
  | nil => cases ws <;> rfl
  | cons i is ih =>
    cases ws with
    | nil => rfl
    | cons w ws =>
      simp only [scatter]
      rw [ih _ _ (by intro hm; exact h (List.mem_cons_of_mem _ hm)),
        nthD_set_ne (by intro he; exact h (he ▸ List.mem_cons_self i is))]

/-- C10: on heap exhaustion during Alloc the interpreter's root set —
the words at the indices `rootIdxs` collects, exactly what the Alloc
arm passes to `Heap.gc` — contains only the pointer-tagged words of the
stack below the current top, and consequently every integer-tagged
stack slot is bit-identical after the collection's updates are written
back into the stack. -/
theorem c10_rootset_filter (s : VMState) (size tag : Nat)
    (hex : (s.heap.alloc size tag (seg s.stack (s.stack_ptr - size) size)).1 =
      AllocOut.exhausted) :
    (∀ w ∈ (rootIdxs s.stack s.stack_ptr).map (fun i => nthD s.stack i),
      w.is_pointer = true) ∧
    (∀ roots2 : List Word, ∀ k, (nthD s.stack k).is_pointer = false →
      nthD (scatter s.stack (rootIdxs s.stack s.stack_ptr) roots2) k = nthD s.stack k) := by
  constructor
  · intro w hw
    obtain ⟨i, hi, rfl⟩ := List.mem_map.mp hw
    exact mem_rootIdxs_is_pointer s.stack s.stack_ptr i hi
  · intro roots2 k hk
    refine scatter_not_mem _ _ _ _ (fun hm => ?_)
    rw [mem_rootIdxs_is_pointer s.stack s.stack_ptr k hm] at hk
    exact Bool.noConfusion hk

/-- Witness for C10: a state whose allocation of one word exhausts the
active half; slot 0 holds an integer word and is untouched by the
root write-back. -/
theorem c10_rootset_filter_witness :
    ((⟨[Word.from_int 2, Word.from_pointer 0], 2,
        ⟨[Word.from_int 5, Word.from_int 5, Word.from_int 7, Word.from_int 5,
          ⟨0⟩, ⟨0⟩, ⟨0⟩, ⟨0⟩], true, 3⟩, [], []⟩ : VMState).heap.alloc 1 0
      (seg [Word.from_int 2, Word.from_pointer 0] 1 1)).1 = AllocOut.exhausted ∧
    (nthD [Word.from_int 2, Word.from_pointer 0] 0).is_pointer = false ∧
    nthD (scatter [Word.from_int 2, Word.from_pointer 0]
      (rootIdxs [Word.from_int 2, Word.from_pointer 0] 2) [Word.from_int 99]) 0 =
      nthD [Word.from_int 2, Word.from_pointer 0] 0 := by
  refine ⟨by decide, by decide, ?_⟩
  exact (c10_rootset_filter ⟨[Word.from_int 2, Word.from_pointer 0], 2,
    ⟨[Word.from_int 5, Word.from_int 5, Word.from_int 7, Word.from_int 5,
      ⟨0⟩, ⟨0⟩, ⟨0⟩, ⟨0⟩], true, 3⟩, [], []⟩ 1 0 (by decide)).2 [Word.from_int 99] 0 (by decide)

/-- Heap component of a step result (none when the run died). -/
def heapOf : StepRes → Option Heap
  | .ok s => some s.heap
  | .jmp _ s => some s.heap
  | .halt s => some s.heap
  | .fatal => none

theorem popW_some (s : VMState) (w : Word) (s2 : VMState) (h : popW s = some (w, s2)) :
    s2 = { s with stack_ptr := s.stack_ptr - 1 } ∧ w = nthD s.stack (s.stack_ptr - 1) ∧
    1 ≤ s.stack_ptr ∧ s.stack_ptr ≤ s.stack.length := by
  unfold popW at h
  split at h
  · next hc =>
    cases h
    exact ⟨rfl, rfl, hc.1, hc.2⟩
  · exact Option.noConfusion h

theorem heapOf_pushW (s2 : VMState) (w : Word) (h' : Heap)
    (hh : heapOf (pushW s2 w) = some h') : h' = s2.heap := by
  unfold pushW at hh
  split at hh
  · cases hh; rfl
  · cases hh

theorem binStep_heap (s : VMState) (i : Instruction) (h' : Heap)
    (hh : heapOf (binStep s i) = some h') : h' = s.heap := by
  revert hh
  unfold binStep
  cases hp : popW s with
  | none => intro hh; cases hh
  | some ws =>
    obtain ⟨bw, s1⟩ := ws
    obtain ⟨rfl, -, -, -⟩ := popW_some s bw s1 hp
    dsimp only
    split
    · intro hh; cases hh
    · cases hp2 : popW { s with stack_ptr := s.stack_ptr - 1 } with
      | none => intro hh; cases hh
      | some ws2 =>
        obtain ⟨aw, s2⟩ := ws2
        obtain ⟨rfl, -, -, -⟩ := popW_some _ aw s2 hp2
        dsimp only
        split
        · intro hh; cases hh
        · split
          · intro hh; cases hh
          · intro hh
            have h2 := heapOf_pushW _ _ _ hh
            exact h2

set_option maxHeartbeats 1000000 in
theorem step_heap_preserved (s : VMState) (i : Instruction) (hne : i ≠ Instruction.Alloc)
    (h' : Heap) (hh : heapOf (step s i) = some h') : h' = s.heap := by
  cases i with
  | Alloc => exact absurd rfl hne
  | Halt => cases hh; rfl
  | Jump addr => cases hh; rfl
  | Clock => cases hh; rfl
  | Push4 v => exact heapOf_pushW s _ _ hh
  | Push2 v => exact heapOf_pushW s _ _ hh
  | Push1 v => exact heapOf_pushW s _ _ hh
  | Add => exact binStep_heap s _ _ hh
  | Sub => exact binStep_heap s _ _ hh
  | Mul => exact binStep_heap s _ _ hh
  | Div => exact binStep_heap s _ _ hh
  | Mod => exact binStep_heap s _ _ hh
  | Eq => exact binStep_heap s _ _ hh
  | Ne => exact binStep_heap s _ _ hh
  | Lt => exact binStep_heap s _ _ hh
  | Gt => exact binStep_heap s _ _ hh
  | Le => exact binStep_heap s _ _ hh
  | Ge => exact binStep_heap s _ _ hh
  | And => exact binStep_heap s _ _ hh
  | Or => exact binStep_heap s _ _ hh
  | Dup depth =>
    revert hh
    simp only [step]
    split
    · intro hh
      exact heapOf_pushW s _ _ hh
    · intro hh; cases hh
  | Jnz addr =>
    revert hh
    simp only [step]
    cases hp : popW s with
    | none => intro hh; cases hh
    | some ws =>
      obtain ⟨w, s2⟩ := ws
      obtain ⟨rfl, -, -, -⟩ := popW_some s w s2 hp
      dsimp only
      split
      · intro hh; cases hh
      · split <;> intro hh <;> cases hh <;> rfl
  | Jumpi =>
    revert hh
    simp only [step]
    cases hp : popW s with
    | none => intro hh; cases hh
    | some ws =>
      obtain ⟨w, s2⟩ := ws
      obtain ⟨rfl, -, -, -⟩ := popW_some s w s2 hp
      dsimp only
      split
      · intro hh; cases hh
      · intro hh; cases hh; rfl
  | Swap depth =>
    revert hh
    simp only [step]
    split
    · intro hh; cases hh
    · cases hp : popW s with
      | none => intro hh; cases hh
      | some ws =>
        obtain ⟨w, s2⟩ := ws
        obtain ⟨rfl, -, -, -⟩ := popW_some s w s2 hp
        dsimp only
        split
        · intro hh
          have h2 := heapOf_pushW _ _ _ hh
          exact h2
        · intro hh; cases hh
  | Drop =>
    revert hh
    simp only [step]
    cases hp : popW s with
    | none => intro hh; cases hh
    | some ws =>
      obtain ⟨w, s2⟩ := ws
      obtain ⟨rfl, -, -, -⟩ := popW_some s w s2 hp
      dsimp only
      intro hh; cases hh; rfl
  | Not =>
    revert hh
    simp only [step]
    cases hp : popW s with
    | none => intro hh; cases hh
    | some ws =>
      obtain ⟨w, s2⟩ := ws
      obtain ⟨rfl, -, -, -⟩ := popW_some s w s2 hp
      dsimp only
      split
      · intro hh; cases hh
      · intro hh
        have h2 := heapOf_pushW _ _ _ hh
        exact h2
  | Input =>
    revert hh
    simp only [step]
    cases s.input with
    | nil => intro hh; cases hh
    | cons c rest =>
      intro hh
      have h2 := heapOf_pushW _ _ _ hh
      exact h2
  | Output =>
    revert hh
    simp only [step]
    cases hp : popW s with
    | none => intro hh; cases hh
    | some ws =>
      obtain ⟨w, s2⟩ := ws
      obtain ⟨rfl, -, -, -⟩ := popW_some s w s2 hp
      dsimp only
      split
      · intro hh; cases hh
      · intro hh; cases hh; rfl
  | Load offset =>
    revert hh
    simp only [step]
    cases hp : popW s with
    | none => intro hh; cases hh
    | some ws =>
      obtain ⟨w, s2⟩ := ws
      obtain ⟨rfl, -, -, -⟩ := popW_some s w s2 hp
      dsimp only
      split
      · split
        · intro hh
          have h2 := heapOf_pushW _ _ _ hh
          exact h2
        · intro hh; cases hh
      · intro hh; cases hh

theorem alloc_preserves_flag (h : Heap) (size tag : Nat) (words : List Word) :
    ((h.alloc size tag words).2).first_half_active = h.first_half_active := by
  simp only [Heap.alloc]
  repeat' split
  all_goals rfl

theorem gc_ok_flag (h : Heap) (roots : List Word) (h2 : Heap) (roots2 : List Word)
    (hgc : h.gc roots = GcOut.ok h2 roots2) : h2.first_half_active = !h.first_half_active := by
  simp only [Heap.gc] at hgc
  split at hgc
  · cases hgc
    rfl
  · exact GcOut.noConfusion hgc
  · exact GcOut.noConfusion hgc

theorem step_alloc_glue (s : VMState) (hsp : 2 ≤ s.stack_ptr)
    (hlen : s.stack_ptr ≤ s.stack.length)
    (htagp : (nthD s.stack (s.stack_ptr - 1)).is_pointer = false)
    (htagr : 0 ≤ (nthD s.stack (s.stack_ptr - 1)).to_int ∧
      (nthD s.stack (s.stack_ptr - 1)).to_int ≤ 255)
    (hszp : (nthD s.stack (s.stack_ptr - 2)).is_pointer = false)
    (hszr : 0 ≤ (nthD s.stack (s.stack_ptr - 2)).to_int)
    (hszb : (nthD s.stack (s.stack_ptr - 2)).to_int.toNat ≤ s.stack_ptr - 2) :
    step s .Alloc = allocStep { s with stack_ptr := s.stack_ptr - 2 }
      (nthD s.stack (s.stack_ptr - 2)).to_int.toNat
      (nthD s.stack (s.stack_ptr - 1)).to_int.toNat := by
  have hpop1 : popW s = some (nthD s.stack (s.stack_ptr - 1),
      { s with stack_ptr := s.stack_ptr - 1 }) := by
    unfold popW
    rw [if_pos ⟨by omega, hlen⟩]
  have hpop2 : popW { s with stack_ptr := s.stack_ptr - 1 } =
      some (nthD s.stack (s.stack_ptr - 2),
        { s with stack_ptr := s.stack_ptr - 1 - 1 }) := by
    unfold popW
    rw [if_pos ⟨by simp; omega, by simp; omega⟩]
    have h12 : s.stack_ptr - 1 - 1 = s.stack_ptr - 2 := by omega
    simp [h12]
  show step s .Alloc = _
  unfold step
  rw [hpop1]
  dsimp only
  rw [if_neg (by simp [htagp]), if_neg (by omega), hpop2]
  dsimp only
  rw [if_neg (by simp [hszp]), if_neg (by omega), if_neg (by simp; omega)]
  have h12 : s.stack_ptr - 1 - 1 = s.stack_ptr - 2 := by omega
  rw [h12]

/-- Stack-slot projection of a step result. -/
def stackSlotOf (k : Nat) : StepRes → Option Word
  | .ok s => some (nthD s.stack k)
  | _ => none

/-- C2 amended: when Alloc's first allocation attempt reports
exhaustion the interpreter performs exactly one collection — using the
pointer-tagged stack words below the current top as the root set (the
active-half flag, flipped once per collection and by nothing else,
records this) — retries the same request once with the payload re-read
from the same stack slots after the collection's write-back, and a
second exhaustion (or a collection failure) is fatal; when the first
attempt succeeds no collection happens, and no instruction other than
Alloc ever modifies the heap at all. -/
theorem c2_alloc_retry (s : VMState) (size tag : Nat) :
    (∀ addr h2, s.heap.alloc size tag (seg s.stack (s.stack_ptr - size) size) =
        (AllocOut.ok addr, h2) →
      allocStep s size tag =
        pushW { s with heap := h2, stack_ptr := s.stack_ptr - size } (Word.from_pointer addr) ∧
      h2.first_half_active = s.heap.first_half_active) ∧
    ((s.heap.alloc size tag (seg s.stack (s.stack_ptr - size) size)).1 =
        AllocOut.exhausted →
      (∀ w ∈ (rootIdxs s.stack s.stack_ptr).map (fun i => nthD s.stack i),
        w.is_pointer = true) ∧
      (s.heap.gc ((rootIdxs s.stack s.stack_ptr).map (fun i => nthD s.stack i)) =
          GcOut.oom → allocStep s size tag = .fatal) ∧
      (∀ h2 roots2,
        s.heap.gc ((rootIdxs s.stack s.stack_ptr).map (fun i => nthD s.stack i)) =
            GcOut.ok h2 roots2 →
        h2.first_half_active = (!s.heap.first_half_active) ∧
        (∀ addr h3, h2.alloc size tag
            (seg (scatter s.stack (rootIdxs s.stack s.stack_ptr) roots2)
              (s.stack_ptr - size) size) = (AllocOut.ok addr, h3) →
          allocStep s size tag = pushW { s with
              stack := scatter s.stack (rootIdxs s.stack s.stack_ptr) roots2,
              heap := h3, stack_ptr := s.stack_ptr - size } (Word.from_pointer addr) ∧
          h3.first_half_active = (!s.heap.first_half_active)) ∧
        (∀ r h3, h2.alloc size tag
            (seg (scatter s.stack (rootIdxs s.stack s.stack_ptr) roots2)
              (s.stack_ptr - size) size) = (r, h3) →
          (∀ addr, r ≠ AllocOut.ok addr) → allocStep s size tag = .fatal))) ∧
    (∀ i, i ≠ Instruction.Alloc → ∀ h', heapOf (step s i) = some h' → h' = s.heap) := by
  refine ⟨?_, ?_, fun i hne h' hh => step_heap_preserved s i hne h' hh⟩
  · intro addr h2 heq
    constructor
    · show allocStep s size tag = _
      simp only [allocStep]
      rw [heq]
    · have hf := alloc_preserves_flag s.heap size tag (seg s.stack (s.stack_ptr - size) size)
      rw [heq] at hf
      exact hf
  · intro hex
    have heq : s.heap.alloc size tag (seg s.stack (s.stack_ptr - size) size) =
        (AllocOut.exhausted,
          (s.heap.alloc size tag (seg s.stack (s.stack_ptr - size) size)).2) := by
      rw [← hex]
    refine ⟨?_, ?_, ?_⟩
    · intro w hw
      obtain ⟨i, hi, rfl⟩ := List.mem_map.mp hw
      exact mem_rootIdxs_is_pointer s.stack s.stack_ptr i hi
    · intro hoom
      show allocStep s size tag = _
      simp only [allocStep]
      rw [heq]
      dsimp only
      rw [hoom]
    · intro h2 roots2 hgc
      refine ⟨gc_ok_flag _ _ _ _ hgc, ?_, ?_⟩
      · intro addr h3 heq2
        constructor
        · show allocStep s size tag = _
          simp only [allocStep]
          rw [heq]
          dsimp only
          rw [hgc]
          dsimp only
          rw [heq2]
        · have hf := alloc_preserves_flag h2 size tag
            (seg (scatter s.stack (rootIdxs s.stack s.stack_ptr) roots2)
              (s.stack_ptr - size) size)
          rw [heq2] at hf
          rw [hf]
          exact gc_ok_flag _ _ _ _ hgc
      · intro r h3 heq2 hnok
        show allocStep s size tag = _
        simp only [allocStep]
        rw [heq]
        dsimp only
        rw [hgc]
        dsimp only
        rw [heq2]
        cases r with
        | ok addr => exact absurd rfl (hnok addr)
        | exhausted => rfl
        | panicked => rfl

/-- Modelled from the spec: the Alloc arm as C2's words describe it,
performing the collection "using every stack Word below the current top
as the root set" — that is, without the source's
`.filter(|w| w.is_pointer())` on the root references.  Identical to
`allocStep` except that every slot index below the top is a root. -/
def allocStepSpecAllRoots (s : VMState) (size tag : Nat) : StepRes :=
  let sp2 := s.stack_ptr
  let words := seg s.stack (sp2 - size) size
  match s.heap.alloc size tag words with
  | (.ok addr, h2) =>
    pushW { s with heap := h2, stack_ptr := sp2 - size } (Word.from_pointer addr)
  | (.panicked, _) => .fatal
  | (.exhausted, _) =>
    let idxs := List.range sp2
    let roots := idxs.map (fun i => nthD s.stack i)
    match s.heap.gc roots with
    | .ok h2 roots2 =>
      let stack2 := scatter s.stack idxs roots2
      let words2 := seg stack2 (sp2 - size) size
      match h2.alloc size tag words2 with
      | (.ok addr, h3) =>
        pushW { s with stack := stack2, heap := h3, stack_ptr := sp2 - size }
          (Word.from_pointer addr)
      | (.panicked, _) => .fatal
      | (.exhausted, _) => .fatal
    | .oom => .fatal
    | .fuelOut => .fatal

/-- Counterexample to C2 as stated: on a state whose stack below the
top holds only integer words (so the source passes an empty root set),
exhausting the active half and allocating makes the source's Alloc arm
(`allocStep`) leave the integer slot 0 bit-identical, while the
spec-described variant that roots every stack word below the top
(`allocStepSpecAllRoots`) corrupts it into a pointer (the collector
treats the integer payload 2 as a from-space address).  The two
behaviours differ, so the root set is not "every stack Word below the
current top". -/
theorem c2_counterexample :
    (nthD [Word.from_int 2, Word.from_int 9] 0).is_pointer = false ∧
    ((⟨[Word.from_int 2, Word.from_int 9], 2,
        ⟨[Word.from_int 5, Word.from_int 5, Word.from_int 7, Word.from_int 5,
          ⟨0⟩, ⟨0⟩, ⟨0⟩, ⟨0⟩], true, 3⟩, [], []⟩ : VMState).heap.alloc 1 0
      (seg [Word.from_int 2, Word.from_int 9] 1 1)).1 = AllocOut.exhausted ∧
    stackSlotOf 0 (allocStep ⟨[Word.from_int 2, Word.from_int 9], 2,
        ⟨[Word.from_int 5, Word.from_int 5, Word.from_int 7, Word.from_int 5,
          ⟨0⟩, ⟨0⟩, ⟨0⟩, ⟨0⟩], true, 3⟩, [], []⟩ 1 0) = some (Word.from_int 2) ∧
    stackSlotOf 0 (allocStepSpecAllRoots ⟨[Word.from_int 2, Word.from_int 9], 2,
        ⟨[Word.from_int 5, Word.from_int 5, Word.from_int 7, Word.from_int 5,
          ⟨0⟩, ⟨0⟩, ⟨0⟩, ⟨0⟩], true, 3⟩, [], []⟩ 1 0) = some (Word.from_pointer 4) ∧
    allocStep ⟨[Word.from_int 2, Word.from_int 9], 2,
        ⟨[Word.from_int 5, Word.from_int 5, Word.from_int 7, Word.from_int 5,
          ⟨0⟩, ⟨0⟩, ⟨0⟩, ⟨0⟩], true, 3⟩, [], []⟩ 1 0 ≠
      allocStepSpecAllRoots ⟨[Word.from_int 2, Word.from_int 9], 2,
        ⟨[Word.from_int 5, Word.from_int 5, Word.from_int 7, Word.from_int 5,
          ⟨0⟩, ⟨0⟩, ⟨0⟩, ⟨0⟩], true, 3⟩, [], []⟩ 1 0 := by
  refine ⟨by decide, by decide, by decide, by decide, by decide⟩

/-- Witness for the amended C2 on a concrete exhausted state: one
collection runs (the flag flips), the retry succeeds at address 4 in
the newly active half. -/
theorem c2_alloc_retry_witness :
    ((⟨[Word.from_int 2, Word.from_int 9], 2,
        ⟨[Word.from_int 5, Word.from_int 5, Word.from_int 7, Word.from_int 5,
          ⟨0⟩, ⟨0⟩, ⟨0⟩, ⟨0⟩], true, 3⟩, [], []⟩ : VMState).heap.alloc 1 0
      (seg [Word.from_int 2, Word.from_int 9] 1 1)).1 = AllocOut.exhausted ∧
    allocStep ⟨[Word.from_int 2, Word.from_int 9], 2,
        ⟨[Word.from_int 5, Word.from_int 5, Word.from_int 7, Word.from_int 5,
          ⟨0⟩, ⟨0⟩, ⟨0⟩, ⟨0⟩], true, 3⟩, [], []⟩ 1 0 =
      pushW ⟨[Word.from_int 2, Word.from_int 9], 1,
        ⟨[Word.from_int 5, Word.from_int 5, Word.from_int 7, Word.from_int 5,
          Word.from_int 256, Word.from_int 9, ⟨0⟩, ⟨0⟩], false, 6⟩, [], []⟩
        (Word.from_pointer 4) ∧
    (⟨[Word.from_int 5, Word.from_int 5, Word.from_int 7, Word.from_int 5,
        Word.from_int 256, Word.from_int 9, ⟨0⟩, ⟨0⟩], false, 6⟩ : Heap).first_half_active =
      (!(⟨[Word.from_int 5, Word.from_int 5, Word.from_int 7, Word.from_int 5,
        ⟨0⟩, ⟨0⟩, ⟨0⟩, ⟨0⟩], true, 3⟩ : Heap).first_half_active) := by
  refine ⟨by decide, ?_, ?_⟩
  · have h := ((c2_alloc_retry ⟨[Word.from_int 2, Word.from_int 9], 2,
      ⟨[Word.from_int 5, Word.from_int 5, Word.from_int 7, Word.from_int 5,
        ⟨0⟩, ⟨0⟩, ⟨0⟩, ⟨0⟩], true, 3⟩, [], []⟩ 1 0).2.1 (by decide)).2.2
      ⟨[Word.from_int 5, Word.from_int 5, Word.from_int 7, Word.from_int 5,
        ⟨0⟩, ⟨0⟩, ⟨0⟩, ⟨0⟩], false, 4⟩ [] (by decide)
    have h2 := (h.2.1 4
      ⟨[Word.from_int 5, Word.from_int 5, Word.from_int 7, Word.from_int 5,
        Word.from_int 256, Word.from_int 9, ⟨0⟩, ⟨0⟩], false, 6⟩ (by decide)).1
    rw [h2]
    decide
  · have h := ((c2_alloc_retry ⟨[Word.from_int 2, Word.from_int 9], 2,
      ⟨[Word.from_int 5, Word.from_int 5, Word.from_int 7, Word.from_int 5,
        ⟨0⟩, ⟨0⟩, ⟨0⟩, ⟨0⟩], true, 3⟩, [], []⟩ 1 0).2.1 (by decide)).2.2
      ⟨[Word.from_int 5, Word.from_int 5, Word.from_int 7, Word.from_int 5,
        ⟨0⟩, ⟨0⟩, ⟨0⟩, ⟨0⟩], false, 4⟩ [] (by decide)
    exact (h.2.1 4
      ⟨[Word.from_int 5, Word.from_int 5, Word.from_int 7, Word.from_int 5,
        Word.from_int 256, Word.from_int 9, ⟨0⟩, ⟨0⟩], false, 6⟩ (by decide)).2

/-- Ghost description of one allocated block: header address, payload
size, tag byte. -/
structure Block where
  addr : Nat
  size : Nat
  tag : Nat
deriving DecidableEq, Repr

/-- The blocks tile the from-space interval [a, e) consecutively:
each block occupies its header slot plus `size` payload slots. -/
def fromTile (a : Nat) : List Block → Nat → Bool
  | [], e => a == e
  | b :: rest, e => (b.addr == a) && fromTile (a + b.size + 1) rest e

/-- The copied blocks tile the to-space interval [a, e) consecutively,
each paired with its to-space address. -/
def toTile (a : Nat) : List (Block × Nat) → Nat → Prop
  | [], e => a = e
  | (b, q) :: rest, e => q = a ∧ toTile (a + b.size + 1) rest e

theorem fromTile_le (bs : List Block) (a e : Nat) (h : fromTile a bs e = true) : a ≤ e := by
  induction bs generalizing a with
  | nil => simp [fromTile] at h; omega
  | cons b rest ih =>
    simp only [fromTile, Bool.and_eq_true, beq_iff_eq] at h
    have := ih _ h.2
    omega

theorem fromTile_structure (bs : List Block) (a e : Nat) (h : fromTile a bs e = true) :
    ∀ b ∈ bs, a ≤ b.addr ∧ b.addr + b.size + 1 ≤ e ∧
      (∀ b2 ∈ bs, b2 ≠ b → b2.addr + b2.size + 1 ≤ b.addr ∨ b.addr + b.size + 1 ≤ b2.addr) := by
  induction bs generalizing a with
  | nil => intro b hb; simp at hb
  | cons c rest ih =>
    simp only [fromTile, Bool.and_eq_true, beq_iff_eq] at h
    intro b hb
    rcases List.mem_cons.mp hb with rfl | hb
    · refine ⟨by omega, by have := fromTile_le rest _ _ h.2; omega, ?_⟩
      intro b2 hb2 hne
      rcases List.mem_cons.mp hb2 with rfl | hb2
      · exact absurd rfl hne
      · have := (ih _ h.2 b2 hb2).1
        omega
    · obtain ⟨h1, h2, h3⟩ := ih _ h.2 b hb
      refine ⟨by omega, h2, ?_⟩
      intro b2 hb2 hne
      rcases List.mem_cons.mp hb2 with rfl | hb2
      · left; omega
      · exact h3 b2 hb2 hne

theorem fromTile_addr_inj (bs : List Block) (a e : Nat) (h : fromTile a bs e = true)
    (b b2 : Block) (hb : b ∈ bs) (hb2 : b2 ∈ bs) (heq : b.addr = b2.addr) : b = b2 := by
  by_contra hne
  have h1 := (fromTile_structure bs a e h b hb).2.2 b2 hb2 (fun he => hne (he ▸ rfl))
  omega

theorem fromTile_header_ne_payload (bs : List Block) (a e : Nat) (h : fromTile a bs e = true)
    (b b2 : Block) (hb : b ∈ bs) (hb2 : b2 ∈ bs) (j : Nat) (hj : j < b2.size) :
    b.addr ≠ b2.addr + 1 + j := by
  by_cases hne : b = b2
  · subst hne; omega
  · have h1 := (fromTile_structure bs a e h b hb).2.2 b2 hb2 (fun he => hne he.symm)
    have h2 := (fromTile_structure bs a e h b2 hb2).1
    omega

theorem fromTile_weight (bs : List Block) (a e : Nat) (h : fromTile a bs e = true) :
    e = a + (bs.map (fun b => b.size + 1)).sum := by
  induction bs generalizing a with
  | nil => simp [fromTile] at h; simp; omega
  | cons b rest ih =>
    simp only [fromTile, Bool.and_eq_true, beq_iff_eq] at h
    have := ih _ h.2
    simp only [List.map_cons, List.sum_cons]
    omega

theorem fromTile_nodup (bs : List Block) (a e : Nat) (h : fromTile a bs e = true) :
    (bs.map (fun b => b.addr)).Nodup := by
  induction bs generalizing a with
  | nil => simp
  | cons b rest ih =>
    simp only [fromTile, Bool.and_eq_true, beq_iff_eq] at h
    simp only [List.map_cons, List.nodup_cons]
    refine ⟨?_, ih _ h.2⟩
    intro hmem
    obtain ⟨b2, hb2, he⟩ := List.mem_map.mp hmem
    have := (fromTile_structure rest _ _ h.2 b2 hb2).1
    omega

theorem toTile_weight (cs : List (Block × Nat)) (a e : Nat) (h : toTile a cs e) :
    e = a + (cs.map (fun bq => bq.1.size + 1)).sum := by
  induction cs generalizing a with
  | nil =>
    simp only [toTile] at h
    simp
    omega
  | cons bq rest ih =>
    obtain ⟨b, q⟩ := bq
    obtain ⟨h1, h2⟩ := h
    have := ih _ h2
    simp only [List.map_cons, List.sum_cons]
    omega

theorem toTile_le (cs : List (Block × Nat)) (a e : Nat) (h : toTile a cs e) : a ≤ e := by
  have := toTile_weight cs a e h
  omega

theorem toTile_structure (cs : List (Block × Nat)) (a e : Nat) (h : toTile a cs e) :
    ∀ bq ∈ cs, a ≤ bq.2 ∧ bq.2 + bq.1.size + 1 ≤ e ∧
      (∀ bq2 ∈ cs, bq2 ≠ bq → bq2.2 + bq2.1.size + 1 ≤ bq.2 ∨ bq.2 + bq.1.size + 1 ≤ bq2.2) := by
  induction cs generalizing a with
  | nil => intro bq hbq; simp at hbq
  | cons c rest ih =>
    obtain ⟨cb, cq⟩ := c
    obtain ⟨h1, h2⟩ := h
    intro bq hbq
    rcases List.mem_cons.mp hbq with rfl | hbq
    · refine ⟨by omega, by have := toTile_le rest _ _ h2; simp; omega, ?_⟩
      intro bq2 hbq2 hne
      rcases List.mem_cons.mp hbq2 with rfl | hbq2
      · exact absurd rfl hne
      · have := (ih _ h2 bq2 hbq2).1
        simp
        omega
    · obtain ⟨g1, g2, g3⟩ := ih _ h2 bq hbq
      refine ⟨by omega, g2, ?_⟩
      intro bq2 hbq2 hne
      rcases List.mem_cons.mp hbq2 with rfl | hbq2
      · left; simp; omega
      · exact g3 bq2 hbq2 hne

theorem toTile_snoc (cs : List (Block × Nat)) (a e : Nat) (h : toTile a cs e) (b : Block) :
    toTile a (cs ++ [(b, e)]) (e + b.size + 1) := by
  induction cs generalizing a with
  | nil =>
    simp only [toTile] at h
    refine ⟨h.symm, ?_⟩
    simp only [toTile]
    omega
  | cons c rest ih =>
    obtain ⟨cb, cq⟩ := c
    exact ⟨h.1, ih _ h.2⟩

/-- Number of non-pointer words among heap slots [lo, lo + n): the
count of unforwarded from-space slots, used as the collector's
termination measure. -/
def countNonPtr (heap : List Word) (lo n : Nat) : Nat :=
  ((List.range' lo n).filter (fun k => !(nthD heap k).is_pointer)).length

theorem cnp_le (heap : List Word) (lo n : Nat) : countNonPtr heap lo n ≤ n := by
  unfold countNonPtr
  calc ((List.range' lo n).filter _).length ≤ (List.range' lo n).length :=
        List.length_filter_le _ _
    _ = n := List.length_range' ..

theorem cnp_congr (h1 h2 : List Word) (lo n : Nat)
    (h : ∀ k, lo ≤ k → k < lo + n → nthD h1 k = nthD h2 k) :
    countNonPtr h1 lo n = countNonPtr h2 lo n := by
  unfold countNonPtr
  congr 1
  apply List.filter_congr
  intro k hk
  have hk2 := List.mem_range'_1.mp hk
  rw [h k hk2.1 hk2.2]

theorem cnp_set_out (heap : List Word) (lo n p : Nat) (w : Word)
    (h : p < lo ∨ lo + n ≤ p) :
    countNonPtr (heap.set p w) lo n = countNonPtr heap lo n := by
  apply cnp_congr
  intro k hk1 hk2
  exact nthD_set_ne (by omega) w

theorem cnp_set_ptr (heap : List Word) (lo n p : Nat) (w : Word)
    (hp1 : lo ≤ p) (hp2 : p < lo + n) (hplen : p < heap.length)
    (hold : (nthD heap p).is_pointer = false) (hnew : w.is_pointer = true) :
    countNonPtr (heap.set p w) lo n + 1 = countNonPtr heap lo n := by
  unfold countNonPtr
  induction n generalizing lo with
  | zero => omega
  | succ n ih =>
    simp only [List.range']
    by_cases hpe : p = lo
    · subst hpe
      rw [List.filter_cons, List.filter_cons]
      simp only [nthD_set_eq hplen, hnew, hold, Bool.not_true, Bool.not_false]
      rw [if_neg (by simp), if_pos trivial]
      simp only [List.length_cons]
      have hout : ∀ k, p + 1 ≤ k → k < p + 1 + n → nthD (heap.set p w) k = nthD heap k :=
        fun k hk1 hk2 => nthD_set_ne (by omega) w
      have hcongr := cnp_congr (heap.set p w) heap (p + 1) n hout
      unfold countNonPtr at hcongr
      omega
    · rw [List.filter_cons, List.filter_cons, nthD_set_ne (by omega : lo ≠ p)]
      have hi := ih (lo + 1) (by omega) (by omega)
      cases hcv : (!(nthD heap lo).is_pointer) with
      | true =>
        rw [if_pos rfl, if_pos rfl]
        simp only [List.length_cons]
        omega
      | false =>
        rw [if_neg (by simp), if_neg (by simp)]
        omega

theorem length_copySeg (n : Nat) (src0 l : List Word) (src dst : Nat) :
    (copySeg src0 l src dst n).length = l.length := by
  induction n generalizing l src dst with
  | zero => rfl
  | succ n ih => simp [copySeg, ih]

theorem nthD_copySeg_out (n : Nat) (src0 l : List Word) (src dst k : Nat)
    (h : k < dst ∨ dst + n ≤ k) :
    nthD (copySeg src0 l src dst n) k = nthD l k := by
  induction n generalizing l src dst with
  | zero => rfl
  | succ n ih =>
    simp only [copySeg]
    rw [ih _ _ _ (by omega), nthD_set_ne (by omega)]

theorem nthD_copySeg_in (n : Nat) (src0 l : List Word) (src dst k : Nat)
    (hk1 : dst ≤ k) (hk2 : k < dst + n) (hlen : dst + n ≤ l.length) :
    nthD (copySeg src0 l src dst n) k = nthD src0 (src + (k - dst)) := by
  induction n generalizing l src dst with
  | zero => omega
  | succ n ih =>
    simp only [copySeg]
    by_cases hke : k = dst
    · subst hke
      rw [nthD_copySeg_out _ _ _ _ _ _ (by omega), nthD_set_eq (by omega)]
      simp
    · rw [ih _ _ _ (by omega) (by omega) (by simp only [List.length_set]; omega)]
      have : src + 1 + (k - (dst + 1)) = src + (k - dst) := by omega
      rw [this]

theorem mem_scanSlots (A : List Word) (lo hiHalf base n : Nat) (e : TodoEntry) :
    e ∈ scanSlots A lo hiHalf base n ↔
      ∃ j, j < n ∧ e = TodoEntry.heapSlot (base + j) ∧
        (nthD A (base + j)).is_pointer = true ∧
        lo ≤ (nthD A (base + j)).to_pointer ∧ (nthD A (base + j)).to_pointer < hiHalf := by
  unfold scanSlots
  constructor
  · intro h
    obtain ⟨j, hj, rfl⟩ := List.mem_map.mp h
    obtain ⟨hjr, hcond⟩ := List.mem_filter.mp hj
    simp only [Bool.and_eq_true, decide_eq_true_eq] at hcond
    exact ⟨j, List.mem_range.mp hjr, rfl, hcond.1, hcond.2.1, hcond.2.2⟩
  · intro h
    obtain ⟨j, hj, he, h1, h2, h3⟩ := h
    subst he
    apply List.mem_map.mpr
    refine ⟨j, List.mem_filter.mpr ⟨List.mem_range.mpr hj, ?_⟩, rfl⟩
    simp only [Bool.and_eq_true, decide_eq_true_eq]
    exact ⟨h1, h2, h3⟩

theorem nodup_scanSlots (A : List Word) (lo hiHalf base n : Nat) :
    (scanSlots A lo hiHalf base n).Nodup := by
  unfold scanSlots
  refine List.Nodup.map ?_ (List.Nodup.filter _ (List.nodup_range _))
  intro j1 j2 he
  injection he with he2
  omega

theorem sum_le_of_nodup_sub (f : Block → Nat) (cs bs : List Block) (hnd : cs.Nodup)
    (hsub : ∀ c ∈ cs, c ∈ bs) :
    (cs.map f).sum ≤ (bs.map f).sum := by
  induction cs generalizing bs with
  | nil => simp
  | cons c cs ih =>
    have hc : c ∈ bs := hsub c (List.mem_cons_self c cs)
    have hperm : bs.Perm (c :: bs.erase c) := List.perm_cons_erase hc
    have hsum : (bs.map f).sum = f c + ((bs.erase c).map f).sum := by
      rw [List.Perm.sum_eq (List.Perm.map f hperm)]
      simp
    rw [hsum]
    simp only [List.map_cons, List.sum_cons]
    have hnd2 := List.nodup_cons.mp hnd
    have hsub2 : ∀ x ∈ cs, x ∈ bs.erase c := by
      intro x hx
      have hxc : x ≠ c := by
        intro he
        subst he
        exact hnd2.1 hx
      exact (List.mem_erase_of_ne hxc).mpr (hsub x (List.mem_cons_of_mem c hx))
    have := ih (bs.erase c) hnd2.2 hsub2
    omega

theorem decode_size (sz tg : Nat) (htg : tg < 256) (hsz : sz * 256 + tg < 1073741824) :
    usizeOfInt (Int.fdiv (Word.from_int ((sz * 256 + tg : Nat) : Int)).to_int 256) = sz := by
  rw [to_int_from_int_small (by omega) (by push_cast; omega)]
  rw [Int.fdiv_eq_ediv _ (by decide)]
  unfold usizeOfInt
  omega

/-- All parameters of one collection together with the well-formedness
of the pre-collection heap: the original array `A0`, its ghost block
list `bs`, the original roots, the from-half [lo, hiHalf), the to-half
[toLo, limit), and the allocation frontier `free0`.  The conditions are
what holds of a heap built by `alloc` with valid pointers. -/
structure GcCtx where
  A0 : List Word
  bs : List Block
  roots0 : List Word
  lo : Nat
  hiHalf : Nat
  toLo : Nat
  limit : Nat
  free0 : Nat
  size_small : A0.length ≤ 1073741824
  hdisj : hiHalf ≤ toLo ∨ limit ≤ lo
  hHiLen : hiHalf ≤ A0.length
  hLimLen : limit ≤ A0.length
  htoLo : toLo ≤ limit
  hlo : lo ≤ free0
  hfree : free0 ≤ hiHalf
  tile : fromTile lo bs free0 = true
  headers : ∀ b ∈ bs, nthD A0 b.addr = Word.from_int ((b.size * 256 + b.tag : Nat) : Int) ∧
    b.tag < 256 ∧ b.size * 256 + b.tag < 1073741824
  payloads : ∀ b ∈ bs, ∀ j, j < b.size → (nthD A0 (b.addr + 1 + j)).is_pointer = true →
    ∃ b2, b2 ∈ bs ∧ nthD A0 (b.addr + 1 + j) = Word.from_pointer b2.addr
  capacity : free0 - lo ≤ limit - toLo
  rootsWF : ∀ w ∈ roots0, ∃ b, b ∈ bs ∧ w = Word.from_pointer b.addr

/-- Reachability in the pre-collection heap: a block is reachable when
a root points at its header, or a payload word of a reachable block
does. -/
inductive Reaches (A0 : List Word) (roots0 : List Word) (bs : List Block) : Nat → Prop where
  | root (b : Block) : b ∈ bs → Word.from_pointer b.addr ∈ roots0 →
      Reaches A0 roots0 bs b.addr
  | step (b b2 : Block) (j : Nat) : Reaches A0 roots0 bs b.addr → b ∈ bs → b2 ∈ bs →
      j < b.size → nthD A0 (b.addr + 1 + j) = Word.from_pointer b2.addr →
      Reaches A0 roots0 bs b2.addr

/-- The collector-loop invariant, carried through every iteration.
`copied` lists the blocks copied so far in copy order, paired with
their to-space addresses. -/
structure GcInv (c : GcCtx) (s : GcSt) (copied : List (Block × Nat)) : Prop where
  len : s.heap.length = c.A0.length
  rlen : s.roots.length = c.roots0.length
  copied_mem : ∀ b q, (b, q) ∈ copied → b ∈ c.bs
  copied_nodup : (copied.map (fun bq => bq.1.addr)).Nodup
  tile : toTile c.toLo copied s.next
  fwd : ∀ b q, (b, q) ∈ copied → nthD s.heap b.addr = Word.from_pointer q
  unforwarded : ∀ b ∈ c.bs, (∀ q, (b, q) ∉ copied) → nthD s.heap b.addr = nthD c.A0 b.addr
  from_payload : ∀ b ∈ c.bs, ∀ j, j < b.size →
    nthD s.heap (b.addr + 1 + j) = nthD c.A0 (b.addr + 1 + j)
  to_header : ∀ b q, (b, q) ∈ copied → nthD s.heap q = nthD c.A0 b.addr
  to_payload : ∀ b q, (b, q) ∈ copied → ∀ j, j < b.size →
    (nthD s.heap (q + 1 + j) = nthD c.A0 (b.addr + 1 + j) ∧
      ((nthD c.A0 (b.addr + 1 + j)).is_pointer = true →
        TodoEntry.heapSlot (q + 1 + j) ∈ s.todo)) ∨
    (∃ b2 q2, (b2, q2) ∈ copied ∧
      nthD c.A0 (b.addr + 1 + j) = Word.from_pointer b2.addr ∧
      nthD s.heap (q + 1 + j) = Word.from_pointer q2 ∧
      TodoEntry.heapSlot (q + 1 + j) ∉ s.todo)
  todo_nodup : s.todo.Nodup
  todo_stack : ∀ i, TodoEntry.stackWord i ∈ s.todo → i < c.roots0.length
  todo_slot : ∀ t, TodoEntry.heapSlot t ∈ s.todo → ∃ b q j, (b, q) ∈ copied ∧ j < b.size ∧
    t = q + 1 + j ∧ (nthD c.A0 (b.addr + 1 + j)).is_pointer = true
  roots_state : ∀ i, i < c.roots0.length →
    (nthD s.roots i = nthD c.roots0 i ∧ TodoEntry.stackWord i ∈ s.todo) ∨
    (∃ b q, (b, q) ∈ copied ∧ nthD c.roots0 i = Word.from_pointer b.addr ∧
      nthD s.roots i = Word.from_pointer q ∧ TodoEntry.stackWord i ∉ s.todo)
  reach : ∀ b q, (b, q) ∈ copied → Reaches c.A0 c.roots0 c.bs b.addr

/-- The loop measure: unforwarded from-space slots weighted by the heap
size, plus the worklist length. -/
def gcMeasure (c : GcCtx) (s : GcSt) : Nat :=
  countNonPtr s.heap c.lo (c.hiHalf - c.lo) * (c.A0.length + 1) + s.todo.length

theorem nthD_mem (l : List Word) (i : Nat) (h : i < l.length) : nthD l i ∈ l := by
  unfold nthD
  rw [List.getD_eq_getElem _ _ h]
  exact List.getElem_mem h

theorem ctx_block_bounds (c : GcCtx) (b : Block) (hb : b ∈ c.bs) :
    c.lo ≤ b.addr ∧ b.addr + b.size + 1 ≤ c.free0 :=
  ⟨(fromTile_structure c.bs c.lo c.free0 c.tile b hb).1,
   (fromTile_structure c.bs c.lo c.free0 c.tile b hb).2.1⟩

theorem ctx_addr_inj (c : GcCtx) (b b2 : Block) (hb : b ∈ c.bs) (hb2 : b2 ∈ c.bs)
    (h : b.addr = b2.addr) : b = b2 :=
  fromTile_addr_inj c.bs c.lo c.free0 c.tile b b2 hb hb2 h

theorem ctx_header_ne_payload (c : GcCtx) (b b2 : Block) (hb : b ∈ c.bs) (hb2 : b2 ∈ c.bs)
    (j : Nat) (hj : j < b2.size) : b.addr ≠ b2.addr + 1 + j :=
  fromTile_header_ne_payload c.bs c.lo c.free0 c.tile b b2 hb hb2 j hj

theorem ctx_weight (c : GcCtx) : c.free0 = c.lo + (c.bs.map (fun b => b.size + 1)).sum :=
  fromTile_weight c.bs c.lo c.free0 c.tile

theorem ctx_halves_ne (c : GcCtx) (x y : Nat) (hx1 : c.lo ≤ x) (hx2 : x < c.hiHalf)
    (hy1 : c.toLo ≤ y) (hy2 : y < c.limit) : x ≠ y := by
  rcases c.hdisj with h | h <;> omega

/-- The weight of the copied list is bounded by the weight of the block
list, with room for one more uncopied block. -/
theorem copied_weight_le (c : GcCtx) (copied : List (Block × Nat))
    (hmem : ∀ b q, (b, q) ∈ copied → b ∈ c.bs)
    (hnd : (copied.map (fun bq => bq.1.addr)).Nodup) (b : Block) (hb : b ∈ c.bs)
    (hnc : ∀ q, (b, q) ∉ copied) :
    ((copied.map (fun bq => bq.1)).map (fun b => b.size + 1)).sum + (b.size + 1) ≤
      (c.bs.map (fun b => b.size + 1)).sum := by
  have hnd2 : (copied.map (fun bq => bq.1)).Nodup := by
    have : copied.map (fun bq => bq.1.addr) =
        (copied.map (fun bq => bq.1)).map (fun b => b.addr) := by
      rw [List.map_map]
      rfl
    rw [this] at hnd
    exact List.Nodup.of_map _ hnd
  have hbmem : b ∉ copied.map (fun bq => bq.1) := by
    intro hbm
    obtain ⟨⟨b2, q2⟩, hm, he⟩ := List.mem_map.mp hbm
    dsimp at he
    subst he
    exact hnc q2 hm
  have hsum := sum_le_of_nodup_sub (fun b => b.size + 1) (b :: copied.map (fun bq => bq.1))
    c.bs (List.nodup_cons.mpr ⟨hbmem, hnd2⟩) ?_
  · simp only [List.map_cons, List.sum_cons] at hsum
    omega
  · intro x hx
    rcases List.mem_cons.mp hx with rfl | hx
    · exact hb
    · obtain ⟨⟨b2, q2⟩, hm, he⟩ := List.mem_map.mp hx
      dsimp at he
      subst he
      exact hmem b2 q2 hm

theorem inv_next_le (c : GcCtx) (s : GcSt) (copied : List (Block × Nat))
    (inv : GcInv c s copied) : s.next ≤ c.limit := by
  have hw := toTile_weight copied c.toLo s.next inv.tile
  have hsum := sum_le_of_nodup_sub (fun b => b.size + 1) (copied.map (fun bq => bq.1)) c.bs
    (by
      have : copied.map (fun bq => bq.1.addr) =
          (copied.map (fun bq => bq.1)).map (fun b => b.addr) := by
        rw [List.map_map]
        rfl
      exact List.Nodup.of_map _ (this ▸ inv.copied_nodup))
    (by
      intro x hx
      obtain ⟨⟨b2, q2⟩, hm, he⟩ := List.mem_map.mp hx
      dsimp at he
      subst he
      exact inv.copied_mem b2 q2 hm)
  have hcw := ctx_weight c
  have hcap := c.capacity
  have hlo := c.hlo
  have htl := c.htoLo
  have heq : (copied.map (fun bq => bq.1.size + 1)).sum =
      ((copied.map (fun bq => bq.1)).map (fun b => b.size + 1)).sum := by
    rw [List.map_map]
    rfl
  rw [heq] at hw
  omega

/-- What the head worklist entry refers to in a state satisfying the
invariant: a pending location holding a pointer to the header of a
block `b`. -/
inductive LocSpec (c : GcCtx) (s : GcSt) (copied : List (Block × Nat)) :
    TodoEntry → Block → Prop where
  | stack (i : Nat) (b : Block) : i < c.roots0.length →
      nthD c.roots0 i = Word.from_pointer b.addr →
      nthD s.roots i = Word.from_pointer b.addr →
      LocSpec c s copied (.stackWord i) b
  | slot (t : Nat) (bp : Block) (qp jp : Nat) (b : Block) : (bp, qp) ∈ copied →
      jp < bp.size → t = qp + 1 + jp →
      nthD c.A0 (bp.addr + 1 + jp) = Word.from_pointer b.addr →
      nthD s.heap t = Word.from_pointer b.addr →
      LocSpec c s copied (.heapSlot t) b

theorem loc_of_entry (c : GcCtx) (s : GcSt) (copied : List (Block × Nat))
    (inv : GcInv c s copied) (entry : TodoEntry) (rest : List TodoEntry)
    (hT : s.todo = entry :: rest) :
    ∃ b, b ∈ c.bs ∧ LocSpec c s copied entry b ∧
      entryWord s entry = Word.from_pointer b.addr := by
  have hmem : entry ∈ s.todo := by rw [hT]; exact List.mem_cons_self _ _
  cases entry with
  | stackWord i =>
    have hi := inv.todo_stack i hmem
    rcases inv.roots_state i hi with ⟨hval, _⟩ | ⟨b, q, _, _, _, hnot⟩
    · have hmm := nthD_mem c.roots0 i (by omega)
      obtain ⟨b, hb, hbe⟩ := c.rootsWF _ hmm
      refine ⟨b, hb, LocSpec.stack i b hi hbe (by rw [hval, hbe]), ?_⟩
      show nthD s.roots i = _
      rw [hval, hbe]
    · exact absurd hmem hnot
  | heapSlot t =>
    obtain ⟨bp, qp, jp, hcp, hjp, rfl, hptr⟩ := inv.todo_slot t hmem
    rcases inv.to_payload bp qp hcp jp hjp with ⟨hval, _⟩ | ⟨b2, q2, _, _, _, hnot⟩
    · obtain ⟨b, hb, hbe⟩ := c.payloads bp (inv.copied_mem bp qp hcp) jp hjp hptr
      refine ⟨b, hb, LocSpec.slot _ bp qp jp b hcp hjp rfl hbe (by rw [hval, hbe]), ?_⟩
      show nthD s.heap _ = _
      rw [hval, hbe]
    · exact absurd hmem hnot

theorem loc_reach (c : GcCtx) (s : GcSt) (copied : List (Block × Nat))
    (inv : GcInv c s copied) (entry : TodoEntry) (b : Block) (hb : b ∈ c.bs)
    (hloc : LocSpec c s copied entry b) : Reaches c.A0 c.roots0 c.bs b.addr := by
  cases hloc with
  | stack i _ hi hroot _ =>
    exact Reaches.root b hb (hroot ▸ nthD_mem c.roots0 i (by omega))
  | slot t bp qp jp _ hcp hjp ht hpay _ =>
    exact Reaches.step bp b jp (inv.reach bp qp hcp) (inv.copied_mem bp qp hcp) hb hjp hpay

theorem to_slot_unique (c : GcCtx) (s : GcSt) (copied : List (Block × Nat))
    (inv : GcInv c s copied) (b2 : Block) (q2 j2 : Nat) (h2 : (b2, q2) ∈ copied)
    (hj2 : j2 < b2.size) (bp : Block) (qp jp : Nat) (hp : (bp, qp) ∈ copied)
    (hjp : jp < bp.size) (heq : q2 + 1 + j2 = qp + 1 + jp) :
    b2 = bp ∧ q2 = qp ∧ j2 = jp := by
  by_cases hpair : (b2, q2) = (bp, qp)
  · have e1 : b2 = bp := congrArg Prod.fst hpair
    have e2 : q2 = qp := congrArg Prod.snd hpair
    exact ⟨e1, e2, by omega⟩
  · have hd := (toTile_structure copied c.toLo s.next inv.tile (bp, qp) hp).2.2 (b2, q2) h2 hpair
    dsimp at hd
    omega

theorem to_header_ne_slot (c : GcCtx) (s : GcSt) (copied : List (Block × Nat))
    (inv : GcInv c s copied) (b2 : Block) (q2 : Nat) (h2 : (b2, q2) ∈ copied)
    (bp : Block) (qp jp : Nat) (hp : (bp, qp) ∈ copied) (hjp : jp < bp.size) :
    q2 ≠ qp + 1 + jp := by
  by_cases hpair : (b2, q2) = (bp, qp)
  · have e2 : q2 = qp := congrArg Prod.snd hpair
    omega
  · have hd := (toTile_structure copied c.toLo s.next inv.tile (bp, qp) hp).2.2 (b2, q2) h2 hpair
    have hb := (toTile_structure copied c.toLo s.next inv.tile (b2, q2) h2).1
    dsimp at hd hb
    omega

theorem to_slot_lt_next (c : GcCtx) (s : GcSt) (copied : List (Block × Nat))
    (inv : GcInv c s copied) (bp : Block) (qp jp : Nat) (hp : (bp, qp) ∈ copied)
    (hjp : jp < bp.size) : c.toLo ≤ qp + 1 + jp ∧ qp + 1 + jp < s.next := by
  have h := (toTile_structure copied c.toLo s.next inv.tile (bp, qp) hp)
  dsimp at h
  omega

theorem gcStep_skip (c : GcCtx) (s : GcSt) (copied : List (Block × Nat))
    (inv : GcInv c s copied) (entry : TodoEntry) (rest : List TodoEntry)
    (hT : s.todo = entry :: rest) (b : Block) (hb : b ∈ c.bs)
    (hloc : LocSpec c s copied entry b)
    (q2 : Nat) (hq2 : (b, q2) ∈ copied) :
    ∃ s2, gcStep c.lo c.hiHalf c.limit s = .cont s2 ∧ GcInv c s2 copied ∧
      gcMeasure c s2 < gcMeasure c s := by
  have hbb := ctx_block_bounds c b hb
  have haddr_lt : b.addr < 1073741824 := by
    have h2 := c.hfree
    have h3 := c.hHiLen
    have h4 := c.size_small
    omega
  have hrange : c.lo ≤ b.addr ∧ b.addr < c.hiHalf := by
    have h2 := c.hfree
    omega
  have hptr : (Word.from_pointer b.addr).to_pointer = b.addr :=
    to_pointer_from_pointer haddr_lt
  have hfwd := inv.fwd b q2 hq2
  have hnotrest : entry ∉ rest := (List.nodup_cons.mp (hT ▸ inv.todo_nodup)).1
  have hmemtodo : ∀ e, e ∈ rest → e ∈ s.todo := by
    intro e he
    rw [hT]
    exact List.mem_cons_of_mem _ he
  have hmemiff : ∀ e, e ≠ entry → (e ∈ s.todo ↔ e ∈ rest) := by
    intro e hne
    rw [hT, List.mem_cons]
    exact ⟨fun h => h.resolve_left hne, Or.inr⟩
  have htlen : s.todo.length = rest.length + 1 := by rw [hT]; rfl
  cases hloc with
  | stack i _ hi hroot0 hrooti =>
    have hstep0 : gcStep c.lo c.hiHalf c.limit s =
        .cont ⟨s.heap, s.roots.set i (Word.from_pointer q2), rest, s.next⟩ := by
      unfold gcStep
      rw [hT]
      dsimp only [entryWord]
      rw [hrooti, hptr, if_pos hrange, hfwd, if_pos (is_pointer_from_pointer q2)]
    refine ⟨⟨s.heap, s.roots.set i (Word.from_pointer q2), rest, s.next⟩, hstep0, ?_, ?_⟩
    · refine ⟨inv.len, by simp only [List.length_set]; exact inv.rlen,
        inv.copied_mem, inv.copied_nodup, inv.tile, inv.fwd, inv.unforwarded,
        inv.from_payload, inv.to_header, ?_, ?_, ?_, ?_, ?_, inv.reach⟩
      · intro b2 q2' h2 j hj
        rcases inv.to_payload b2 q2' h2 j hj with ⟨hval, hpend⟩ | ⟨b3, q3, h3, he1, he2, hnp⟩
        · exact Or.inl ⟨hval, fun hp =>
            ((hmemiff _ (by intro he; exact TodoEntry.noConfusion he)).mp (hpend hp))⟩
        · exact Or.inr ⟨b3, q3, h3, he1, he2, fun hm => hnp (hmemtodo _ hm)⟩
      · exact List.Nodup.of_cons (hT ▸ inv.todo_nodup)
      · exact fun i2 hm => inv.todo_stack i2 (hmemtodo _ hm)
      · exact fun t hm => inv.todo_slot t (hmemtodo _ hm)
      · intro i2 hi2
        by_cases hieq : i2 = i
        · subst hieq
          refine Or.inr ⟨b, q2, hq2, hroot0, ?_, hnotrest⟩
          rw [nthD_set_eq (by rw [inv.rlen]; omega)]
        · rcases inv.roots_state i2 hi2 with ⟨hval, hpend⟩ | ⟨b3, q3, h3, he1, he2, hnp⟩
          · refine Or.inl ⟨by rw [nthD_set_ne (by omega)]; exact hval, ?_⟩
            exact (hmemiff _ (by intro he; injection he with he2; exact hieq he2)).mp hpend
          · exact Or.inr ⟨b3, q3, h3, he1, by rw [nthD_set_ne (by omega)]; exact he2,
              fun hm => hnp (hmemtodo _ hm)⟩
    · unfold gcMeasure
      dsimp only
      omega
  | slot t bp qp jp _ hcp hjp htq hpay hvalt =>
    have htr := to_slot_lt_next c s copied inv bp qp jp hcp hjp
    have hnle := inv_next_le c s copied inv
    have htlt : t < s.heap.length := by
      rw [inv.len]
      have := c.hLimLen
      omega
    have htfrom : ∀ x, c.lo ≤ x → x < c.hiHalf → x ≠ t := by
      intro x hx1 hx2
      refine ctx_halves_ne c x t hx1 hx2 (by omega) (by omega)
    have hstep0 : gcStep c.lo c.hiHalf c.limit s =
        .cont ⟨s.heap.set t (Word.from_pointer q2), s.roots, rest, s.next⟩ := by
      unfold gcStep
      rw [hT]
      dsimp only [entryWord]
      rw [hvalt, hptr, if_pos hrange, hfwd, if_pos (is_pointer_from_pointer q2)]
    refine ⟨⟨s.heap.set t (Word.from_pointer q2), s.roots, rest, s.next⟩, hstep0, ?_, ?_⟩
    · refine ⟨by simp only [List.length_set]; exact inv.len, inv.rlen,
        inv.copied_mem, inv.copied_nodup, inv.tile, ?_, ?_, ?_, ?_, ?_, ?_, ?_, ?_, ?_,
        inv.reach⟩
      · intro b2 q2' h2
        rw [nthD_set_ne]
        · exact inv.fwd b2 q2' h2
        · have hbb2 := ctx_block_bounds c b2 (inv.copied_mem b2 q2' h2)
          have := c.hfree
          exact htfrom b2.addr (by omega) (by omega)
      · intro b2 hb2 hnc
        rw [nthD_set_ne]
        · exact inv.unforwarded b2 hb2 hnc
        · have hbb2 := ctx_block_bounds c b2 hb2
          have := c.hfree
          exact htfrom b2.addr (by omega) (by omega)
      · intro b2 hb2 j hj
        rw [nthD_set_ne]
        · exact inv.from_payload b2 hb2 j hj
        · have hbb2 := ctx_block_bounds c b2 hb2
          have := c.hfree
          exact htfrom (b2.addr + 1 + j) (by omega) (by omega)
      · intro b2 q2' h2
        rw [nthD_set_ne]
        · exact inv.to_header b2 q2' h2
        · rw [htq]
          exact to_header_ne_slot c s copied inv b2 q2' h2 bp qp jp hcp hjp
      · intro b2 q2' h2 j hj
        by_cases hteq : q2' + 1 + j = t
        · obtain ⟨e1, e2, e3⟩ :=
            to_slot_unique c s copied inv b2 q2' j h2 hj bp qp jp hcp hjp (by omega)
        -- the written slot is exactly the processed entry slot
          refine Or.inr ⟨b, q2, hq2, ?_, ?_, ?_⟩
          · rw [e1, e3]
            exact hpay
          · rw [hteq, nthD_set_eq htlt]
          · rw [hteq]
            exact hnotrest
        · rcases inv.to_payload b2 q2' h2 j hj with ⟨hval, hpend⟩ | ⟨b3, q3, h3, he1, he2, hnp⟩
          · refine Or.inl ⟨by rw [nthD_set_ne hteq]; exact hval, fun hp => ?_⟩
            exact (hmemiff _ (by intro he; injection he with he2; exact hteq he2)).mp (hpend hp)
          · exact Or.inr ⟨b3, q3, h3, he1, by rw [nthD_set_ne hteq]; exact he2,
              fun hm => hnp (hmemtodo _ hm)⟩
      · exact List.Nodup.of_cons (hT ▸ inv.todo_nodup)
      · exact fun i2 hm => inv.todo_stack i2 (hmemtodo _ hm)
      · exact fun t2 hm => inv.todo_slot t2 (hmemtodo _ hm)
      · intro i2 hi2
        rcases inv.roots_state i2 hi2 with ⟨hval, hpend⟩ | ⟨b3, q3, h3, he1, he2, hnp⟩
        · exact Or.inl ⟨hval,
            (hmemiff _ (by intro he; exact TodoEntry.noConfusion he)).mp hpend⟩
        · exact Or.inr ⟨b3, q3, h3, he1, he2, fun hm => hnp (hmemtodo _ hm)⟩
    · unfold gcMeasure
      dsimp only
      rw [cnp_set_out]
      · omega
      · have hlohi := c.hlo
        have := c.hfree
        rcases c.hdisj with hd | hd
        · right; omega
        · left; omega

theorem scanSlots_length_le (A : List Word) (lo hiHalf base n : Nat) :
    (scanSlots A lo hiHalf base n).length ≤ n := by
  unfold scanSlots
  rw [List.length_map]
  calc (List.filter _ (List.range n)).length ≤ (List.range n).length :=
        List.length_filter_le _ _
    _ = n := List.length_range n

theorem copied_addr_not_new (c : GcCtx) (copied : List (Block × Nat))
    (hmem : ∀ b q, (b, q) ∈ copied → b ∈ c.bs) (b : Block) (hb : b ∈ c.bs)
    (hnc : ∀ q, (b, q) ∉ copied) :
    b.addr ∉ copied.map (fun bq => bq.1.addr) := by
  intro hbm
  obtain ⟨⟨b2, q2⟩, hm, he⟩ := List.mem_map.mp hbm
  dsimp at he
  have : b2 = b := ctx_addr_inj c b2 b (hmem b2 q2 hm) hb he
  subst this
  exact hnc q2 hm

set_option maxRecDepth 4000 in
theorem gcStep_copy (c : GcCtx) (s : GcSt) (copied : List (Block × Nat))
    (inv : GcInv c s copied) (entry : TodoEntry) (rest : List TodoEntry)
    (hT : s.todo = entry :: rest) (b : Block) (hb : b ∈ c.bs)
    (hloc : LocSpec c s copied entry b)
    (hnc : ∀ q, (b, q) ∉ copied) :
    ∃ s2, gcStep c.lo c.hiHalf c.limit s = .cont s2 ∧
      GcInv c s2 (copied ++ [(b, s.next)]) ∧ gcMeasure c s2 < gcMeasure c s := by
  have hbb := ctx_block_bounds c b hb
  have hfree := c.hfree
  have hHiLen := c.hHiLen
  have hsmall := c.size_small
  have hLimLen := c.hLimLen
  have htoLo := c.htoLo
  have hlo := c.hlo
  have haddr_lt : b.addr < 1073741824 := by omega
  have hrange : c.lo ≤ b.addr ∧ b.addr < c.hiHalf := by omega
  have hptr : (Word.from_pointer b.addr).to_pointer = b.addr :=
    to_pointer_from_pointer haddr_lt
  have hhdr := c.headers b hb
  have hheapahdr : nthD s.heap b.addr = nthD c.A0 b.addr := inv.unforwarded b hb hnc
  have hnp : (nthD s.heap b.addr).is_pointer = false := by
    rw [hheapahdr, hhdr.1]
    exact is_pointer_from_int _
  have hsize : usizeOfInt (Int.fdiv (nthD s.heap b.addr).to_int 256) = b.size := by
    rw [hheapahdr, hhdr.1]
    exact decode_size b.size b.tag hhdr.2.1 hhdr.2.2
  have hwp := toTile_weight copied c.toLo s.next inv.tile
  have hcwle := copied_weight_le c copied inv.copied_mem inv.copied_nodup b hb hnc
  have hcw := ctx_weight c
  have hcap := c.capacity
  have heqw : (copied.map (fun bq => bq.1.size + 1)).sum =
      ((copied.map (fun bq => bq.1)).map (fun b => b.size + 1)).sum := by
    rw [List.map_map]
    rfl
  rw [heqw] at hwp
  have hassert : s.next + b.size < c.limit := by omega
  have hnext_toLo : c.toLo ≤ s.next := by omega
  have hlen0 := inv.len
  have hbound : b.addr + b.size + 1 ≤ s.heap.length := by omega
  have hnewlim : s.next + b.size + 1 ≤ s.heap.length := by omega
  -- facts about the heap after the block copy and the forwarding write
  have hA2len : ((copySeg s.heap s.heap b.addr s.next (b.size + 1)).set b.addr
      (Word.from_pointer s.next)).length = s.heap.length := by
    rw [List.length_set, length_copySeg]
  have hto_ne_from : ∀ x, c.lo ≤ x → x < c.hiHalf → ∀ y, c.toLo ≤ y → y < c.limit → x ≠ y :=
    fun x hx1 hx2 y hy1 hy2 => ctx_halves_ne c x y hx1 hx2 hy1 hy2
  have hA2_at_from : ∀ k, c.lo ≤ k → k < c.hiHalf → k ≠ b.addr →
      nthD ((copySeg s.heap s.heap b.addr s.next (b.size + 1)).set b.addr
        (Word.from_pointer s.next)) k = nthD s.heap k := by
    intro k hk1 hk2 hkne
    rw [nthD_set_ne hkne]
    apply nthD_copySeg_out
    rcases c.hdisj with hd | hd
    · left; omega
    · right; omega
  have hA2_ptr : nthD ((copySeg s.heap s.heap b.addr s.next (b.size + 1)).set b.addr
      (Word.from_pointer s.next)) b.addr = Word.from_pointer s.next := by
    apply nthD_set_eq
    rw [length_copySeg]
    omega
  have hA2_to_old : ∀ k, c.toLo ≤ k → k < s.next →
      nthD ((copySeg s.heap s.heap b.addr s.next (b.size + 1)).set b.addr
        (Word.from_pointer s.next)) k = nthD s.heap k := by
    intro k hk0 hk
    rw [nthD_set_ne, nthD_copySeg_out]
    · left; omega
    · intro he
      exact hto_ne_from b.addr hrange.1 hrange.2 k hk0 (by omega) he.symm
  have hA2_to_new : ∀ d, d ≤ b.size →
      nthD ((copySeg s.heap s.heap b.addr s.next (b.size + 1)).set b.addr
        (Word.from_pointer s.next)) (s.next + d) = nthD s.heap (b.addr + d) := by
    intro d hd
    have hne : s.next + d ≠ b.addr := by
      intro he
      exact hto_ne_from b.addr hrange.1 hrange.2 (s.next + d) (by omega) (by omega) he.symm
    rw [nthD_set_ne hne, nthD_copySeg_in (b.size + 1) s.heap s.heap b.addr s.next (s.next + d)
      (by omega) (by omega) (by omega)]
    rw [show s.next + d - s.next = d from by omega]
  have hA2_pay : ∀ j, j < b.size →
      nthD ((copySeg s.heap s.heap b.addr s.next (b.size + 1)).set b.addr
        (Word.from_pointer s.next)) (s.next + 1 + j) = nthD c.A0 (b.addr + 1 + j) := by
    intro j hj
    have h1 := hA2_to_new (1 + j) (by omega)
    rw [show s.next + (1 + j) = s.next + 1 + j by omega,
      show b.addr + (1 + j) = b.addr + 1 + j by omega] at h1
    rw [h1]
    exact inv.from_payload b hb j hj
  have hA2_hd : nthD ((copySeg s.heap s.heap b.addr s.next (b.size + 1)).set b.addr
      (Word.from_pointer s.next)) s.next = nthD c.A0 b.addr := by
    have h1 := hA2_to_new 0 (by omega)
    simp only [Nat.add_zero] at h1
    rw [h1]
    exact hheapahdr
  have hscan : ∀ e, e ∈ scanSlots ((copySeg s.heap s.heap b.addr s.next (b.size + 1)).set
      b.addr (Word.from_pointer s.next)) c.lo c.hiHalf (s.next + 1) b.size ↔
      ∃ j, j < b.size ∧ e = TodoEntry.heapSlot (s.next + 1 + j) ∧
        (nthD c.A0 (b.addr + 1 + j)).is_pointer = true := by
    intro e
    rw [mem_scanSlots]
    constructor
    · intro ⟨j, hj, he, hp, _, _⟩
      rw [hA2_pay j hj] at hp
      exact ⟨j, hj, he, hp⟩
    · intro ⟨j, hj, he, hp⟩
      obtain ⟨b2, hb2, hbe⟩ := c.payloads b hb j hj hp
      have hbb2 := ctx_block_bounds c b2 hb2
      have hb2lt : b2.addr < 1073741824 := by omega
      refine ⟨j, hj, he, ?_, ?_, ?_⟩
      · rw [hA2_pay j hj]
        exact hp
      · rw [hA2_pay j hj, hbe, to_pointer_from_pointer hb2lt]
        omega
      · rw [hA2_pay j hj, hbe, to_pointer_from_pointer hb2lt]
        omega
  have hnotrest : entry ∉ rest := (List.nodup_cons.mp (hT ▸ inv.todo_nodup)).1
  have hmemtodo : ∀ e, e ∈ rest → e ∈ s.todo := by
    intro e he
    rw [hT]
    exact List.mem_cons_of_mem _ he
  have hmemiff : ∀ e, e ≠ entry → (e ∈ s.todo ↔ e ∈ rest) := by
    intro e hne
    rw [hT, List.mem_cons]
    exact ⟨fun h => h.resolve_left hne, Or.inr⟩
  have htlen : s.todo.length = rest.length + 1 := by rw [hT]; rfl
  have hdisj_rest_new : List.Disjoint rest (scanSlots ((copySeg s.heap s.heap b.addr s.next
      (b.size + 1)).set b.addr (Word.from_pointer s.next)) c.lo c.hiHalf (s.next + 1) b.size) := by
    intro e he henew
    obtain ⟨j, hj, rfl, -⟩ := (hscan e).mp henew
    obtain ⟨bp, qp, jp, hcp, hjp, heq, -⟩ := inv.todo_slot _ (hmemtodo _ he)
    have := to_slot_lt_next c s copied inv bp qp jp hcp hjp
    omega
  have hc2mem : ∀ b2 q2, (b2, q2) ∈ copied ++ [(b, s.next)] ↔
      (b2, q2) ∈ copied ∨ (b2 = b ∧ q2 = s.next) := by
    intro b2 q2
    rw [List.mem_append, List.mem_singleton, Prod.mk.injEq]
  have hbmem2 : (b, s.next) ∈ copied ++ [(b, s.next)] := (hc2mem b s.next).mpr (Or.inr ⟨rfl, rfl⟩)
  have hbneq : ∀ b2 q2, (b2, q2) ∈ copied → b2 ≠ b := by
    intro b2 q2 hm he
    subst he
    exact hnc q2 hm
  have hbaddrne : ∀ b2 q2, (b2, q2) ∈ copied → b2.addr ≠ b.addr := by
    intro b2 q2 hm he
    exact hbneq b2 q2 hm (ctx_addr_inj c b2 b (inv.copied_mem b2 q2 hm) hb he)
  have holdq : ∀ b2 q2, (b2, q2) ∈ copied → c.toLo ≤ q2 ∧ q2 + b2.size + 1 ≤ s.next := by
    intro b2 q2 hm
    have h1 := (toTile_structure copied c.toLo s.next inv.tile (b2, q2) hm).1
    have h2 := (toTile_structure copied c.toLo s.next inv.tile (b2, q2) hm).2.1
    exact ⟨h1, h2⟩
  have hnodup2 : ((copied ++ [(b, s.next)]).map (fun bq => bq.1.addr)).Nodup := by
    rw [List.map_append]
    refine List.Nodup.append inv.copied_nodup (by simp) ?_
    intro a ha hb2
    simp only [List.map_cons, List.map_nil, List.mem_singleton] at hb2
    subst hb2
    exact copied_addr_not_new c copied inv.copied_mem b hb hnc ha
  have hreach_new : Reaches c.A0 c.roots0 c.bs b.addr := loc_reach c s copied inv entry b hb hloc
  have hsizeL : b.size ≤ c.A0.length := by omega
  have hcnp1 : countNonPtr (copySeg s.heap s.heap b.addr s.next (b.size + 1)) c.lo
      (c.hiHalf - c.lo) = countNonPtr s.heap c.lo (c.hiHalf - c.lo) := by
    apply cnp_congr
    intro k hk1 hk2
    apply nthD_copySeg_out
    rcases c.hdisj with hd | hd
    · left; omega
    · right; omega
  have hcnp2 : countNonPtr ((copySeg s.heap s.heap b.addr s.next (b.size + 1)).set b.addr
      (Word.from_pointer s.next)) c.lo (c.hiHalf - c.lo) + 1 =
      countNonPtr (copySeg s.heap s.heap b.addr s.next (b.size + 1)) c.lo (c.hiHalf - c.lo) := by
    apply cnp_set_ptr
    · omega
    · omega
    · rw [length_copySeg]; omega
    · have hout : b.addr < s.next ∨ s.next + (b.size + 1) ≤ b.addr := by
        rcases c.hdisj with hd | hd
        · left; omega
        · right; omega
      rw [nthD_copySeg_out _ _ _ _ _ _ hout]
      exact hnp
    · exact is_pointer_from_pointer s.next
  have hscanlen := scanSlots_length_le ((copySeg s.heap s.heap b.addr s.next
      (b.size + 1)).set b.addr (Word.from_pointer s.next)) c.lo c.hiHalf (s.next + 1) b.size
  cases hloc with
  | stack i _ hi hroot0 hrooti =>
    have hstep0 : gcStep c.lo c.hiHalf c.limit s = .cont
        ⟨(copySeg s.heap s.heap b.addr s.next (b.size + 1)).set b.addr
            (Word.from_pointer s.next),
          s.roots.set i (Word.from_pointer s.next),
          rest ++ scanSlots ((copySeg s.heap s.heap b.addr s.next (b.size + 1)).set b.addr
            (Word.from_pointer s.next)) c.lo c.hiHalf (s.next + 1) b.size,
          s.next + b.size + 1⟩ := by
      unfold gcStep
      rw [hT]
      dsimp only [entryWord]
      rw [hrooti, hptr, if_pos hrange, hnp]
      rw [if_neg (show ¬(false = true) from by simp)]
      rw [hsize, if_pos hassert, if_pos hbound, hA2_ptr]
    refine ⟨_, hstep0, ?_, ?_⟩
    · refine ⟨by rw [hA2len]; exact inv.len, by simp only [List.length_set]; exact inv.rlen,
        ?_, hnodup2, toTile_snoc copied c.toLo s.next inv.tile b, ?_, ?_, ?_, ?_, ?_, ?_, ?_,
        ?_, ?_, ?_⟩
      · intro b2 q2 hm
        rcases (hc2mem b2 q2).mp hm with hm | ⟨rfl, rfl⟩
        · exact inv.copied_mem b2 q2 hm
        · exact hb
      · intro b2 q2 hm
        rcases (hc2mem b2 q2).mp hm with hm | ⟨rfl, rfl⟩
        · have hbb2 := ctx_block_bounds c b2 (inv.copied_mem b2 q2 hm)
          rw [hA2_at_from b2.addr (by omega) (by omega) (hbaddrne b2 q2 hm)]
          exact inv.fwd b2 q2 hm
        · exact hA2_ptr
      · intro b2 hb2 hnc2
        have hne : b2 ≠ b := by
          intro he
          subst he
          exact hnc2 s.next hbmem2
        have hbb2 := ctx_block_bounds c b2 hb2
        rw [hA2_at_from b2.addr (by omega) (by omega)
          (fun he => hne (ctx_addr_inj c b2 b hb2 hb he))]
        exact inv.unforwarded b2 hb2 (fun q hq => hnc2 q ((hc2mem b2 q).mpr (Or.inl hq)))
      · intro b2 hb2 j hj
        have hbb2 := ctx_block_bounds c b2 hb2
        rw [hA2_at_from (b2.addr + 1 + j) (by omega) (by omega)
          (Ne.symm (ctx_header_ne_payload c b b2 hb hb2 j hj))]
        exact inv.from_payload b2 hb2 j hj
      · intro b2 q2 hm
        rcases (hc2mem b2 q2).mp hm with hm | ⟨rfl, rfl⟩
        · have hq := holdq b2 q2 hm
          rw [hA2_to_old q2 (by omega) (by omega)]
          exact inv.to_header b2 q2 hm
        · exact hA2_hd
      · intro b2 q2 hm j hj
        rcases (hc2mem b2 q2).mp hm with hm | ⟨rfl, rfl⟩
        · have hq := holdq b2 q2 hm
          rcases inv.to_payload b2 q2 hm j hj with ⟨hval, hpend⟩ | ⟨b3, q3, h3, he1, he2, hnp3⟩
          · refine Or.inl ⟨by rw [hA2_to_old (q2 + 1 + j) (by omega) (by omega)]; exact hval,
              fun hp => ?_⟩
            exact List.mem_append_left _
              ((hmemiff _ (by intro he; exact TodoEntry.noConfusion he)).mp (hpend hp))
          · refine Or.inr ⟨b3, q3, (hc2mem b3 q3).mpr (Or.inl h3), he1,
              by rw [hA2_to_old (q2 + 1 + j) (by omega) (by omega)]; exact he2, fun hm2 => ?_⟩
            rcases List.mem_append.mp hm2 with hm2 | hm2
            · exact hnp3 (hmemtodo _ hm2)
            · obtain ⟨j2, hj2, he, -⟩ := (hscan _).mp hm2
              injection he with he
              omega
        · refine Or.inl ⟨hA2_pay j hj, fun hp => ?_⟩
          exact List.mem_append_right _ ((hscan _).mpr ⟨j, hj, rfl, hp⟩)
      · exact List.Nodup.append (List.Nodup.of_cons (hT ▸ inv.todo_nodup))
          (nodup_scanSlots _ _ _ _ _) hdisj_rest_new
      · intro i2 hm
        rcases List.mem_append.mp hm with hm | hm
        · exact inv.todo_stack i2 (hmemtodo _ hm)
        · obtain ⟨j2, hj2, he, -⟩ := (hscan _).mp hm
          exact TodoEntry.noConfusion he
      · intro t2 hm
        rcases List.mem_append.mp hm with hm | hm
        · obtain ⟨bp, qp, jp, hcp, hjp, heq, hpp⟩ := inv.todo_slot t2 (hmemtodo _ hm)
          exact ⟨bp, qp, jp, (hc2mem bp qp).mpr (Or.inl hcp), hjp, heq, hpp⟩
        · obtain ⟨j2, hj2, he, hp2⟩ := (hscan _).mp hm
          injection he with he
          exact ⟨b, s.next, j2, hbmem2, hj2, he, hp2⟩
      · intro i2 hi2
        by_cases hieq : i2 = i
        · subst hieq
          refine Or.inr ⟨b, s.next, hbmem2, hroot0, ?_, ?_⟩
          · rw [nthD_set_eq (by rw [inv.rlen]; omega)]
          · intro hm
            rcases List.mem_append.mp hm with hm | hm
            · exact hnotrest hm
            · obtain ⟨j2, hj2, he, -⟩ := (hscan _).mp hm
              exact TodoEntry.noConfusion he
        · rcases inv.roots_state i2 hi2 with ⟨hval, hpend⟩ | ⟨b3, q3, h3, he1, he2, hnp3⟩
          · refine Or.inl ⟨by rw [nthD_set_ne (by omega)]; exact hval, ?_⟩
            exact List.mem_append_left _
              ((hmemiff _ (by intro he; injection he with he2; exact hieq he2)).mp hpend)
          · refine Or.inr ⟨b3, q3, (hc2mem b3 q3).mpr (Or.inl h3), he1,
              by rw [nthD_set_ne (by omega)]; exact he2, fun hm2 => ?_⟩
            rcases List.mem_append.mp hm2 with hm2 | hm2
            · exact hnp3 (hmemtodo _ hm2)
            · obtain ⟨j2, hj2, he, -⟩ := (hscan _).mp hm2
              exact TodoEntry.noConfusion he
      · intro b2 q2 hm
        rcases (hc2mem b2 q2).mp hm with hm | ⟨rfl, rfl⟩
        · exact inv.reach b2 q2 hm
        · exact hreach_new
    · unfold gcMeasure
      dsimp only
      rw [List.length_append]
      have hcnp3 : countNonPtr ((copySeg s.heap s.heap b.addr s.next (b.size + 1)).set b.addr
          (Word.from_pointer s.next)) c.lo (c.hiHalf - c.lo) * (c.A0.length + 1) +
          (c.A0.length + 1) =
          countNonPtr s.heap c.lo (c.hiHalf - c.lo) * (c.A0.length + 1) := by
        rw [← hcnp1, ← hcnp2]
        ring
      omega
  | slot t bp qp jp _ hcp hjp htq hpay hvalt =>
    have htr := to_slot_lt_next c s copied inv bp qp jp hcp hjp
    have hnle := inv_next_le c s copied inv
    have htfrom : ∀ x, c.lo ≤ x → x < c.hiHalf → x ≠ t := by
      intro x hx1 hx2
      refine ctx_halves_ne c x t hx1 hx2 (by omega) (by omega)
    have htA2 : t < ((copySeg s.heap s.heap b.addr s.next (b.size + 1)).set b.addr
        (Word.from_pointer s.next)).length := by
      rw [hA2len, inv.len]
      have := c.hLimLen
      omega
    have hstep0 : gcStep c.lo c.hiHalf c.limit s = .cont
        ⟨((copySeg s.heap s.heap b.addr s.next (b.size + 1)).set b.addr
            (Word.from_pointer s.next)).set t (Word.from_pointer s.next),
          s.roots,
          rest ++ scanSlots ((copySeg s.heap s.heap b.addr s.next (b.size + 1)).set b.addr
            (Word.from_pointer s.next)) c.lo c.hiHalf (s.next + 1) b.size,
          s.next + b.size + 1⟩ := by
      unfold gcStep
      rw [hT]
      dsimp only [entryWord]
      rw [hvalt, hptr, if_pos hrange, hnp]
      rw [if_neg (show ¬(false = true) from by simp)]
      rw [hsize, if_pos hassert, if_pos hbound, hA2_ptr]
    refine ⟨_, hstep0, ?_, ?_⟩
    · refine ⟨by simp only [List.length_set, length_copySeg]; exact inv.len, inv.rlen,
        ?_, hnodup2, toTile_snoc copied c.toLo s.next inv.tile b, ?_, ?_, ?_, ?_, ?_, ?_, ?_,
        ?_, ?_, ?_⟩
      · intro b2 q2 hm
        rcases (hc2mem b2 q2).mp hm with hm | ⟨rfl, rfl⟩
        · exact inv.copied_mem b2 q2 hm
        · exact hb
      · intro b2 q2 hm
        rcases (hc2mem b2 q2).mp hm with hm | ⟨he1, he2⟩
        · have hbb2 := ctx_block_bounds c b2 (inv.copied_mem b2 q2 hm)
          have := c.hfree
          rw [nthD_set_ne (htfrom b2.addr (by omega) (by omega))]
          rw [hA2_at_from b2.addr (by omega) (by omega) (hbaddrne b2 q2 hm)]
          exact inv.fwd b2 q2 hm
        · rw [he1, he2]
          rw [nthD_set_ne (htfrom b.addr (by omega) (by omega))]
          exact hA2_ptr
      · intro b2 hb2 hnc2
        have hne : b2 ≠ b := by
          intro he
          subst he
          exact hnc2 s.next hbmem2
        have hbb2 := ctx_block_bounds c b2 hb2
        have := c.hfree
        rw [nthD_set_ne (htfrom b2.addr (by omega) (by omega))]
        rw [hA2_at_from b2.addr (by omega) (by omega)
          (fun he => hne (ctx_addr_inj c b2 b hb2 hb he))]
        exact inv.unforwarded b2 hb2 (fun q hq => hnc2 q ((hc2mem b2 q).mpr (Or.inl hq)))
      · intro b2 hb2 j hj
        have hbb2 := ctx_block_bounds c b2 hb2
        have := c.hfree
        rw [nthD_set_ne (htfrom (b2.addr + 1 + j) (by omega) (by omega))]
        rw [hA2_at_from (b2.addr + 1 + j) (by omega) (by omega)
          (Ne.symm (ctx_header_ne_payload c b b2 hb hb2 j hj))]
        exact inv.from_payload b2 hb2 j hj
      · intro b2 q2 hm
        rcases (hc2mem b2 q2).mp hm with hm | ⟨rfl, rfl⟩
        · have hq := holdq b2 q2 hm
          have hqt : q2 ≠ t := by
            rw [htq]
            exact to_header_ne_slot c s copied inv b2 q2 hm bp qp jp hcp hjp
          rw [nthD_set_ne hqt]
          rw [hA2_to_old q2 (by omega) (by omega)]
          exact inv.to_header b2 q2 hm
        · rw [nthD_set_ne (by omega)]
          exact hA2_hd
      · intro b2 q2 hm j hj
        rcases (hc2mem b2 q2).mp hm with hm | ⟨rfl, rfl⟩
        · have hq := holdq b2 q2 hm
          by_cases hteq : q2 + 1 + j = t
          · obtain ⟨e1, e2, e3⟩ := to_slot_unique c s copied inv b2 q2 j hm hj bp qp jp hcp hjp
              (by omega)
            refine Or.inr ⟨b, s.next, hbmem2, ?_, ?_, ?_⟩
            · rw [e1, e3]
              exact hpay
            · rw [hteq, nthD_set_eq htA2]
            · intro hm2
              rcases List.mem_append.mp hm2 with hm2 | hm2
              · rw [hteq] at hm2
                exact hnotrest hm2
              · obtain ⟨j2, hj2, he, -⟩ := (hscan _).mp hm2
                injection he with he
                omega
          · rcases inv.to_payload b2 q2 hm j hj with ⟨hval, hpend⟩ | ⟨b3, q3, h3, he1, he2, hnp3⟩
            · refine Or.inl ⟨?_, fun hp => ?_⟩
              · rw [nthD_set_ne hteq, hA2_to_old (q2 + 1 + j) (by omega) (by omega)]
                exact hval
              · exact List.mem_append_left _
                  ((hmemiff _ (by intro he; injection he with he2; exact hteq he2)).mp (hpend hp))
            · refine Or.inr ⟨b3, q3, (hc2mem b3 q3).mpr (Or.inl h3), he1, ?_, fun hm2 => ?_⟩
              · rw [nthD_set_ne hteq, hA2_to_old (q2 + 1 + j) (by omega) (by omega)]
                exact he2
              · rcases List.mem_append.mp hm2 with hm2 | hm2
                · exact hnp3 (hmemtodo _ hm2)
                · obtain ⟨j2, hj2, he, -⟩ := (hscan _).mp hm2
                  injection he with he
                  omega
        · refine Or.inl ⟨?_, fun hp => ?_⟩
          · rw [nthD_set_ne (by omega)]
            exact hA2_pay j hj
          · exact List.mem_append_right _ ((hscan _).mpr ⟨j, hj, rfl, hp⟩)
      · exact List.Nodup.append (List.Nodup.of_cons (hT ▸ inv.todo_nodup))
          (nodup_scanSlots _ _ _ _ _) hdisj_rest_new
      · intro i2 hm
        rcases List.mem_append.mp hm with hm | hm
        · exact inv.todo_stack i2 (hmemtodo _ hm)
        · obtain ⟨j2, hj2, he, -⟩ := (hscan _).mp hm
          exact TodoEntry.noConfusion he
      · intro t2 hm
        rcases List.mem_append.mp hm with hm | hm
        · obtain ⟨bp2, qp2, jp2, hcp2, hjp2, heq2, hpp2⟩ := inv.todo_slot t2 (hmemtodo _ hm)
          exact ⟨bp2, qp2, jp2, (hc2mem bp2 qp2).mpr (Or.inl hcp2), hjp2, heq2, hpp2⟩
        · obtain ⟨j2, hj2, he, hp2⟩ := (hscan _).mp hm
          injection he with he
          exact ⟨b, s.next, j2, hbmem2, hj2, he, hp2⟩
      · intro i2 hi2
        rcases inv.roots_state i2 hi2 with ⟨hval, hpend⟩ | ⟨b3, q3, h3, he1, he2, hnp3⟩
        · refine Or.inl ⟨hval, ?_⟩
          exact List.mem_append_left _
            ((hmemiff _ (by intro he; exact TodoEntry.noConfusion he)).mp hpend)
        · refine Or.inr ⟨b3, q3, (hc2mem b3 q3).mpr (Or.inl h3), he1, he2, fun hm2 => ?_⟩
          rcases List.mem_append.mp hm2 with hm2 | hm2
          · exact hnp3 (hmemtodo _ hm2)
          · obtain ⟨j2, hj2, he, -⟩ := (hscan _).mp hm2
            exact TodoEntry.noConfusion he
      · intro b2 q2 hm
        rcases (hc2mem b2 q2).mp hm with hm | ⟨rfl, rfl⟩
        · exact inv.reach b2 q2 hm
        · exact hreach_new
    · unfold gcMeasure
      dsimp only
      rw [List.length_append]
      rw [cnp_set_out]
      · have hcnp3 : countNonPtr ((copySeg s.heap s.heap b.addr s.next (b.size + 1)).set b.addr
            (Word.from_pointer s.next)) c.lo (c.hiHalf - c.lo) * (c.A0.length + 1) +
            (c.A0.length + 1) =
            countNonPtr s.heap c.lo (c.hiHalf - c.lo) * (c.A0.length + 1) := by
          rw [← hcnp1, ← hcnp2]
          ring
        omega
      · rcases c.hdisj with hd | hd
        · right; omega
        · left; omega


/-- Each iteration of the loop on a nonempty worklist preserves the
invariant (extending the copied list when a fresh block is reached)
and strictly decreases the measure. -/
theorem gcStep_iter (c : GcCtx) (s : GcSt) (copied : List (Block × Nat))
    (inv : GcInv c s copied) (entry : TodoEntry) (rest : List TodoEntry)
    (hT : s.todo = entry :: rest) :
    ∃ s2 copied2, gcStep c.lo c.hiHalf c.limit s = .cont s2 ∧ GcInv c s2 copied2 ∧
      gcMeasure c s2 < gcMeasure c s := by
  obtain ⟨b, hb, hloc, -⟩ := loc_of_entry c s copied inv entry rest hT
  by_cases hcop : ∃ q, (b, q) ∈ copied
  · obtain ⟨q2, hq2⟩ := hcop
    obtain ⟨s2, hstep, inv2, hdec⟩ := gcStep_skip c s copied inv entry rest hT b hb hloc q2 hq2
    exact ⟨s2, copied, hstep, inv2, hdec⟩
  · push_neg at hcop
    obtain ⟨s2, hstep, inv2, hdec⟩ := gcStep_copy c s copied inv entry rest hT b hb hloc hcop
    exact ⟨s2, copied ++ [(b, s.next)], hstep, inv2, hdec⟩

/-- With fuel exceeding the measure, the loop drains the worklist and
ends normally with the invariant intact. -/
theorem gcLoop_inv (c : GcCtx) : ∀ (fuel : Nat) (s : GcSt) (copied : List (Block × Nat)),
    GcInv c s copied → gcMeasure c s < fuel →
    ∃ s2 copied2, gcLoop c.lo c.hiHalf c.limit fuel s = .fin s2 ∧
      GcInv c s2 copied2 ∧ s2.todo = [] := by
  intro fuel
  induction fuel with
  | zero => intro s copied inv hm; omega
  | succ fuel ih =>
    intro s copied inv hm
    cases hT : s.todo with
    | nil =>
      have hstep : gcStep c.lo c.hiHalf c.limit s = .done s := by
        unfold gcStep
        rw [hT]
      refine ⟨s, copied, ?_, inv, hT⟩
      unfold gcLoop
      rw [hstep]
    | cons entry rest =>
      obtain ⟨s2, copied2, hstep, inv2, hdec⟩ := gcStep_iter c s copied inv entry rest hT
      have hm2 : gcMeasure c s2 < fuel := by omega
      obtain ⟨s3, copied3, hrun, inv3, htodo3⟩ := ih s2 copied2 inv2 hm2
      refine ⟨s3, copied3, ?_, inv3, htodo3⟩
      unfold gcLoop
      rw [hstep]
      exact hrun

/-- The invariant holds at the seeded state: roots untouched, worklist
one entry per external root, nothing copied. -/
theorem gcInv_init (c : GcCtx) :
    GcInv c ⟨c.A0, c.roots0, (List.range c.roots0.length).map TodoEntry.stackWord, c.toLo⟩
      [] := by
  refine ⟨rfl, rfl, ?_, ?_, ?_, ?_, ?_, ?_, ?_, ?_, ?_, ?_, ?_, ?_, ?_⟩
  · intro b q hm
    exact absurd hm (List.not_mem_nil _)
  · simp
  · rfl
  · intro b q hm
    exact absurd hm (List.not_mem_nil _)
  · intro b hb hnc
    rfl
  · intro b hb j hj
    rfl
  · intro b q hm
    exact absurd hm (List.not_mem_nil _)
  · intro b q hm
    exact absurd hm (List.not_mem_nil _)
  · refine List.Nodup.map ?_ (List.nodup_range _)
    intro x y hxy
    exact TodoEntry.stackWord.injEq x y ▸ hxy
  · intro i hm
    obtain ⟨i2, hi2, he⟩ := List.mem_map.mp hm
    injection he with he
    subst he
    exact List.mem_range.mp hi2
  · intro t hm
    obtain ⟨i2, hi2, he⟩ := List.mem_map.mp hm
    exact TodoEntry.noConfusion he
  · intro i hi
    exact Or.inl ⟨rfl, List.mem_map.mpr ⟨i, List.mem_range.mpr hi, rfl⟩⟩
  · intro b q hm
    exact absurd hm (List.not_mem_nil _)

/-- Pointer words with in-range addresses are injective in the address. -/
theorem from_pointer_inj {a b : Nat} (ha : a < 1073741824) (hb : b < 1073741824)
    (h : Word.from_pointer a = Word.from_pointer b) : a = b := by
  have h2 := congrArg Word.to_pointer h
  rwa [to_pointer_from_pointer ha, to_pointer_from_pointer hb] at h2

/-- Every word of a tiled region belongs to some tile entry. -/
theorem toTile_covers (cs : List (Block × Nat)) : ∀ (a e : Nat), toTile a cs e →
    ∀ u, a ≤ u → u < e → ∃ b q, (b, q) ∈ cs ∧ q ≤ u ∧ u ≤ q + b.size := by
  induction cs with
  | nil =>
    intro a e h u h1 h2
    simp only [toTile] at h
    omega
  | cons bq rest ih =>
    obtain ⟨b, q⟩ := bq
    intro a e h u h1 h2
    simp only [toTile] at h
    obtain ⟨hq, hrest⟩ := h
    by_cases hu : u ≤ q + b.size
    · exact ⟨b, q, List.mem_cons_self _ _, by omega, hu⟩
    · obtain ⟨b2, q2, hm, hq1, hq2⟩ := ih (a + b.size + 1) e hrest u (by omega) h2
      exact ⟨b2, q2, List.mem_cons_of_mem _ hm, hq1, hq2⟩

/-- Once the worklist is empty, every block reachable in the original
heap appears in the copied list. -/
theorem reach_in_copied (c : GcCtx) (s : GcSt) (copied : List (Block × Nat))
    (inv : GcInv c s copied) (htodo : s.todo = []) :
    ∀ a, Reaches c.A0 c.roots0 c.bs a →
      ∃ b q, b.addr = a ∧ b ∈ c.bs ∧ (b, q) ∈ copied := by
  intro a hr
  have haddr_small : ∀ b2, b2 ∈ c.bs → b2.addr < 1073741824 := by
    intro b2 hb2
    have hbb := ctx_block_bounds c b2 hb2
    have h2 := c.hfree
    have h3 := c.hHiLen
    have h4 := c.size_small
    omega
  induction hr with
  | root b hb hmem =>
    obtain ⟨i, hi, hval⟩ := List.getElem_of_mem hmem
    have hnth : nthD c.roots0 i = Word.from_pointer b.addr := by
      unfold nthD
      rw [List.getD_eq_getElem _ _ hi]
      exact hval
    rcases inv.roots_state i hi with ⟨-, hpend⟩ | ⟨b3, q3, h3, he1, -, -⟩
    · rw [htodo] at hpend
      exact absurd hpend (List.not_mem_nil _)
    · have hb3 := inv.copied_mem b3 q3 h3
      have he : b3.addr = b.addr := by
        refine from_pointer_inj (haddr_small b3 hb3) (haddr_small b hb) ?_
        rw [← he1, hnth]
      exact ⟨b3, q3, he, hb3, h3⟩
  | step b b2 j hr2 hb hb2 hj hpt ih =>
    obtain ⟨bb, q, hba, hbbs, hbc⟩ := ih
    have hbeq : bb = b := ctx_addr_inj c bb b hbbs hb hba
    subst hbeq
    rcases inv.to_payload bb q hbc j hj with ⟨-, hpend⟩ | ⟨b3, q3, h3, he1, -, -⟩
    · have hp : (nthD c.A0 (bb.addr + 1 + j)).is_pointer = true := by
        rw [hpt]
        exact is_pointer_from_pointer _
      have h4 := hpend hp
      rw [htodo] at h4
      exact absurd h4 (List.not_mem_nil _)
    · have hb3 := inv.copied_mem b3 q3 h3
      have he : b3.addr = b2.addr := by
        refine from_pointer_inj (haddr_small b3 hb3) (haddr_small b2 hb2) ?_
        rw [← he1, hpt]
      exact ⟨b3, q3, he, hb3, h3⟩

/-- Full correctness of the collector loop from the seeded state: it
finishes normally, the copied blocks tile the to-space without
duplication, they are exactly the reachable blocks, their headers and
payloads are preserved up to forwarding, and the roots are rewritten
to the forwarded addresses. -/
theorem gcLoop_spec (c : GcCtx) (fuel : Nat)
    (hfuel : c.A0.length * (c.A0.length + 1) + c.roots0.length + 1 ≤ fuel) :
    ∃ s2 copied,
      gcLoop c.lo c.hiHalf c.limit fuel
        ⟨c.A0, c.roots0, (List.range c.roots0.length).map TodoEntry.stackWord, c.toLo⟩ =
        .fin s2 ∧
      (copied.map (fun bq => bq.1.addr)).Nodup ∧
      toTile c.toLo copied s2.next ∧
      (∀ b q, (b, q) ∈ copied → b ∈ c.bs ∧ Reaches c.A0 c.roots0 c.bs b.addr) ∧
      (∀ a, Reaches c.A0 c.roots0 c.bs a → ∃ b q, b.addr = a ∧ b ∈ c.bs ∧ (b, q) ∈ copied) ∧
      (∀ b q, (b, q) ∈ copied → nthD s2.heap q = nthD c.A0 b.addr) ∧
      (∀ b q, (b, q) ∈ copied → ∀ j, j < b.size →
        nthD s2.heap (q + 1 + j) = nthD c.A0 (b.addr + 1 + j) ∨
        ∃ b2 q2, (b2, q2) ∈ copied ∧
          nthD c.A0 (b.addr + 1 + j) = Word.from_pointer b2.addr ∧
          nthD s2.heap (q + 1 + j) = Word.from_pointer q2) ∧
      s2.roots.length = c.roots0.length ∧
      (∀ i, i < c.roots0.length → ∃ b q, (b, q) ∈ copied ∧
        nthD c.roots0 i = Word.from_pointer b.addr ∧ nthD s2.roots i = Word.from_pointer q) ∧
      s2.heap.length = c.A0.length := by
  have hm0 : gcMeasure c
      ⟨c.A0, c.roots0, (List.range c.roots0.length).map TodoEntry.stackWord, c.toLo⟩ < fuel := by
    unfold gcMeasure
    dsimp only
    rw [List.length_map, List.length_range]
    have h1 : countNonPtr c.A0 c.lo (c.hiHalf - c.lo) ≤ c.hiHalf - c.lo := cnp_le _ _ _
    have h2 : c.hiHalf - c.lo ≤ c.A0.length := by
      have := c.hHiLen
      omega
    have h3 := Nat.mul_le_mul_right (c.A0.length + 1) (le_trans h1 h2)
    omega
  obtain ⟨s2, copied, hrun, inv2, htodo⟩ := gcLoop_inv c fuel _ [] (gcInv_init c) hm0
  refine ⟨s2, copied, hrun, inv2.copied_nodup, inv2.tile,
    fun b q hm => ⟨inv2.copied_mem b q hm, inv2.reach b q hm⟩,
    reach_in_copied c s2 copied inv2 htodo,
    inv2.to_header, ?_, inv2.rlen, ?_, inv2.len⟩
  · intro b q hm j hj
    rcases inv2.to_payload b q hm j hj with ⟨hv, -⟩ | ⟨b2, q2, h2, he1, he2, -⟩
    · exact Or.inl hv
    · exact Or.inr ⟨b2, q2, h2, he1, he2⟩
  · intro i hi
    rcases inv2.roots_state i hi with ⟨-, hpend⟩ | ⟨b3, q3, h3, he1, he2, -⟩
    · rw [htodo] at hpend
      exact absurd hpend (List.not_mem_nil _)
    · exact ⟨b3, q3, h3, he1, he2⟩

/-- Well-formedness of a heap, root set and block inventory before a
collection: the blocks tile the active half up to `free_addr`, headers
encode size and tag, pointer-tagged payload words and all roots point
at block headers, and the inactive half has room for the live data.
All conjuncts are decidable, so a concrete instance is checked by
evaluation. -/
def GcWF (h : Heap) (roots : List Word) (bs : List Block) : Prop :=
  h.heap.length ≤ 1073741824 ∧
  (if h.first_half_active then 0 else h.heap.length / 2) ≤ h.free_addr ∧
  h.free_addr ≤ (if h.first_half_active then h.heap.length / 2 else h.heap.length) ∧
  h.free_addr - (if h.first_half_active then 0 else h.heap.length / 2) ≤
    (if h.first_half_active then h.heap.length else h.heap.length / 2) -
      (if h.first_half_active then h.heap.length / 2 else 0) ∧
  fromTile (if h.first_half_active then 0 else h.heap.length / 2) bs h.free_addr = true ∧
  (∀ b ∈ bs, nthD h.heap b.addr = Word.from_int ((b.size * 256 + b.tag : Nat) : Int) ∧
    b.tag < 256 ∧ b.size * 256 + b.tag < 1073741824) ∧
  (∀ b ∈ bs, ∀ j, j < b.size → (nthD h.heap (b.addr + 1 + j)).is_pointer = true →
    ∃ b2, b2 ∈ bs ∧ nthD h.heap (b.addr + 1 + j) = Word.from_pointer b2.addr) ∧
  (∀ w ∈ roots, ∃ b, b ∈ bs ∧ w = Word.from_pointer b.addr)

instance (h : Heap) (roots : List Word) (bs : List Block) : Decidable (GcWF h roots bs) := by
  unfold GcWF
  infer_instance

/-- Full correctness of `Heap.gc` on a well-formed heap: the collection
returns normally with the active half flipped; the copied blocks tile
the new active space from its base with no duplicates; they are exactly
the blocks reachable from the roots; each copied block keeps its header
word and its payload words up to rewriting of forwarded pointers; and
every root is rewritten to its block's new address. -/
theorem gc_ok_spec (h : Heap) (roots : List Word) (bs : List Block) (hwf : GcWF h roots bs) :
    ∃ (s2 : GcSt) (copied : List (Block × Nat)),
      h.gc roots = GcOut.ok ⟨s2.heap, !h.first_half_active, s2.next⟩ s2.roots ∧
      (copied.map (fun bq => bq.1.addr)).Nodup ∧
      toTile (if h.first_half_active then h.heap.length / 2 else 0) copied s2.next ∧
      (∀ b q, (b, q) ∈ copied → b ∈ bs ∧ Reaches h.heap roots bs b.addr) ∧
      (∀ a, Reaches h.heap roots bs a → ∃ b q, b.addr = a ∧ b ∈ bs ∧ (b, q) ∈ copied) ∧
      (∀ b q, (b, q) ∈ copied → nthD s2.heap q = nthD h.heap b.addr) ∧
      (∀ b q, (b, q) ∈ copied → ∀ j, j < b.size →
        nthD s2.heap (q + 1 + j) = nthD h.heap (b.addr + 1 + j) ∨
        ∃ b2 q2, (b2, q2) ∈ copied ∧
          nthD h.heap (b.addr + 1 + j) = Word.from_pointer b2.addr ∧
          nthD s2.heap (q + 1 + j) = Word.from_pointer q2) ∧
      s2.roots.length = roots.length ∧
      (∀ i, i < roots.length → ∃ b q, (b, q) ∈ copied ∧
        nthD roots i = Word.from_pointer b.addr ∧ nthD s2.roots i = Word.from_pointer q) ∧
      s2.heap.length = h.heap.length := by
  obtain ⟨hsmall, hlo, hfree, hcap, htile, hheaders, hpayloads, hroots⟩ := hwf
  cases hfa : h.first_half_active with
  | true =>
    rw [hfa] at hlo hfree hcap htile
    simp only [eq_self_iff_true, if_true] at hlo hfree hcap htile
    obtain ⟨s2, copied, hrun, hnodup, htile2, hmemr, hreachr, hhd, hpay, hrl, hroots2, hlen⟩ :=
      gcLoop_spec ⟨h.heap, bs, roots, 0, h.heap.length / 2, h.heap.length / 2, h.heap.length,
          h.free_addr, hsmall, Or.inl (le_refl _), Nat.div_le_self _ _, le_refl _,
          Nat.div_le_self _ _, Nat.zero_le _, hfree, htile, hheaders, hpayloads, hcap, hroots⟩
        (gcFuel h roots) (by unfold gcFuel; dsimp only; exact Nat.le_refl _)
    simp only [eq_self_iff_true, if_true, Bool.not_true]
    refine ⟨s2, copied, ?_, hnodup, htile2, hmemr, hreachr, hhd, hpay, hrl, hroots2, hlen⟩
    simp only [Heap.gc, hfa, eq_self_iff_true, if_true, Bool.not_true]
    rw [show gcLoop 0 (h.heap.length / 2) h.heap.length (gcFuel h roots)
        ⟨h.heap, roots, (List.range roots.length).map TodoEntry.stackWord,
          h.heap.length / 2⟩ = GcLoopOut.fin s2 from hrun]
  | false =>
    rw [hfa] at hlo hfree hcap htile
    simp only [Bool.false_eq_true, if_false] at hlo hfree hcap htile
    obtain ⟨s2, copied, hrun, hnodup, htile2, hmemr, hreachr, hhd, hpay, hrl, hroots2, hlen⟩ :=
      gcLoop_spec ⟨h.heap, bs, roots, h.heap.length / 2, h.heap.length, 0, h.heap.length / 2,
          h.free_addr, hsmall, Or.inr (le_refl _), le_refl _, Nat.div_le_self _ _,
          Nat.zero_le _, hlo, hfree, htile, hheaders, hpayloads, hcap, hroots⟩
        (gcFuel h roots) (by unfold gcFuel; dsimp only; exact Nat.le_refl _)
    simp only [Bool.false_eq_true, if_false, Bool.not_false]
    refine ⟨s2, copied, ?_, hnodup, htile2, hmemr, hreachr, hhd, hpay, hrl, hroots2, hlen⟩
    simp only [Heap.gc, hfa, Bool.false_eq_true, if_false, Bool.not_false]
    rw [show gcLoop (h.heap.length / 2) h.heap.length (h.heap.length / 2) (gcFuel h roots)
        ⟨h.heap, roots, (List.range roots.length).map TodoEntry.stackWord, 0⟩ =
        GcLoopOut.fin s2 from hrun]

/-- On a well-formed heap, block addresses identify blocks. -/
theorem gcwf_addr_inj (h : Heap) (roots : List Word) (bs : List Block)
    (hwf : GcWF h roots bs) (b b2 : Block) (hb : b ∈ bs) (hb2 : b2 ∈ bs)
    (he : b.addr = b2.addr) : b = b2 := by
  obtain ⟨-, -, -, -, htile, -, -, -⟩ := hwf
  exact fromTile_addr_inj bs _ h.free_addr htile b b2 hb hb2 he

/-- C1: on a well-formed heap the collection returns normally; every
block reachable from the roots has a copy inside the new active space
whose header word is bit-identical and whose payload words are
identical except that a payload pointer is rewritten to the new
address of the (copied) block it referred to; and every word of the
occupied part of the new active space belongs to the copy of some
reachable block — unreachable blocks occupy no words there. -/
theorem c1_gc_reachability (h : Heap) (roots : List Word) (bs : List Block)
    (hwf : GcWF h roots bs) :
    ∃ (h2 : Heap) (roots2 : List Word) (copied : List (Block × Nat)),
      h.gc roots = GcOut.ok h2 roots2 ∧
      (∀ a, Reaches h.heap roots bs a →
        ∃ b q, b.addr = a ∧ b ∈ bs ∧ (b, q) ∈ copied) ∧
      (∀ b q, (b, q) ∈ copied →
        (if h.first_half_active then h.heap.length / 2 else 0) ≤ q ∧
        q + b.size + 1 ≤ h2.free_addr ∧
        nthD h2.heap q = nthD h.heap b.addr ∧
        (∀ j, j < b.size →
          nthD h2.heap (q + 1 + j) = nthD h.heap (b.addr + 1 + j) ∨
          ∃ b2 q2, (b2, q2) ∈ copied ∧
            nthD h.heap (b.addr + 1 + j) = Word.from_pointer b2.addr ∧
            nthD h2.heap (q + 1 + j) = Word.from_pointer q2)) ∧
      (∀ u, (if h.first_half_active then h.heap.length / 2 else 0) ≤ u → u < h2.free_addr →
        ∃ b q, (b, q) ∈ copied ∧ Reaches h.heap roots bs b.addr ∧ q ≤ u ∧ u ≤ q + b.size) := by
  obtain ⟨s2, copied, hgc, hnodup, htile2, hmemr, hreachr, hhd, hpay, hrl, hroots2, hlen⟩ :=
    gc_ok_spec h roots bs hwf
  refine ⟨⟨s2.heap, !h.first_half_active, s2.next⟩, s2.roots, copied, hgc, hreachr, ?_, ?_⟩
  · intro b q hm
    have hs := toTile_structure copied _ s2.next htile2 (b, q) hm
    exact ⟨hs.1, hs.2.1, hhd b q hm, hpay b q hm⟩
  · intro u hu1 hu2
    obtain ⟨b, q, hm, hq1, hq2⟩ := toTile_covers copied _ s2.next htile2 u hu1 hu2
    exact ⟨b, q, hm, (hmemr b q hm).2, hq1, hq2⟩

/-- C5: on a well-formed heap — in particular one whose object graph
has cycles or shares blocks — the collection terminates with a normal
result; no block is ever copied twice (the copied list has pairwise
distinct block addresses), a block receives a to-space copy exactly
when it is reachable, and the copies tile the new active space
consecutively, so each live block appears exactly once there. -/
theorem c5_gc_termination_copy_once (h : Heap) (roots : List Word) (bs : List Block)
    (hwf : GcWF h roots bs) :
    ∃ (h2 : Heap) (roots2 : List Word) (copied : List (Block × Nat)),
      h.gc roots = GcOut.ok h2 roots2 ∧
      (copied.map (fun bq => bq.1.addr)).Nodup ∧
      (∀ b ∈ bs, (Reaches h.heap roots bs b.addr ↔ ∃ q, (b, q) ∈ copied)) ∧
      toTile (if h.first_half_active then h.heap.length / 2 else 0) copied h2.free_addr := by
  obtain ⟨s2, copied, hgc, hnodup, htile2, hmemr, hreachr, hhd, hpay, hrl, hroots2, hlen⟩ :=
    gc_ok_spec h roots bs hwf
  refine ⟨⟨s2.heap, !h.first_half_active, s2.next⟩, s2.roots, copied, hgc, hnodup, ?_, htile2⟩
  intro b hb
  constructor
  · intro hr
    obtain ⟨b2, q, ha, hb2, hc⟩ := hreachr b.addr hr
    have he : b2 = b := gcwf_addr_inj h roots bs hwf b2 b hb2 hb ha
    exact ⟨q, he ▸ hc⟩
  · intro ⟨q, hq⟩
    exact (hmemr b q hq).2

/-- A concrete 8-word heap with two one-word blocks that point at each
other (a cycle) and are both rooted (shared references). -/
def cycHeap : Heap :=
  ⟨[Word.from_int 259, Word.from_pointer 2, Word.from_int 256, Word.from_pointer 0,
    ⟨0⟩, ⟨0⟩, ⟨0⟩, ⟨0⟩], true, 4⟩

def cycRoots : List Word := [Word.from_pointer 0, Word.from_pointer 2]

def cycBlocks : List Block := [⟨0, 1, 3⟩, ⟨2, 1, 0⟩]

theorem c1_gc_reachability_witness :
    GcWF cycHeap cycRoots cycBlocks ∧
    (∃ (h2 : Heap) (roots2 : List Word) (copied : List (Block × Nat)),
      Heap.gc cycHeap cycRoots = GcOut.ok h2 roots2 ∧
      (∀ a, Reaches cycHeap.heap cycRoots cycBlocks a →
        ∃ b q, b.addr = a ∧ b ∈ cycBlocks ∧ (b, q) ∈ copied) ∧
      (∀ b q, (b, q) ∈ copied →
        (if cycHeap.first_half_active then cycHeap.heap.length / 2 else 0) ≤ q ∧
        q + b.size + 1 ≤ h2.free_addr ∧
        nthD h2.heap q = nthD cycHeap.heap b.addr ∧
        (∀ j, j < b.size →
          nthD h2.heap (q + 1 + j) = nthD cycHeap.heap (b.addr + 1 + j) ∨
          ∃ b2 q2, (b2, q2) ∈ copied ∧
            nthD cycHeap.heap (b.addr + 1 + j) = Word.from_pointer b2.addr ∧
            nthD h2.heap (q + 1 + j) = Word.from_pointer q2)) ∧
      (∀ u, (if cycHeap.first_half_active then cycHeap.heap.length / 2 else 0) ≤ u →
        u < h2.free_addr →
        ∃ b q, (b, q) ∈ copied ∧ Reaches cycHeap.heap cycRoots cycBlocks b.addr ∧
          q ≤ u ∧ u ≤ q + b.size)) :=
  ⟨by decide, c1_gc_reachability cycHeap cycRoots cycBlocks (by decide)⟩

theorem c5_gc_termination_copy_once_witness :
    GcWF cycHeap cycRoots cycBlocks ∧
    (∃ (h2 : Heap) (roots2 : List Word) (copied : List (Block × Nat)),
      Heap.gc cycHeap cycRoots = GcOut.ok h2 roots2 ∧
      (copied.map (fun bq => bq.1.addr)).Nodup ∧
      (∀ b ∈ cycBlocks,
        (Reaches cycHeap.heap cycRoots cycBlocks b.addr ↔ ∃ q, (b, q) ∈ copied)) ∧
      toTile (if cycHeap.first_half_active then cycHeap.heap.length / 2 else 0) copied
        h2.free_addr) :=
  ⟨by decide, c5_gc_termination_copy_once cycHeap cycRoots cycBlocks (by decide)⟩
